import Mathlib

/-!
# ConditionVariable (src/condition_variable.h)

A shallow embedding of `upnp::ConditionVariable`: the intrusive waiter list
`_on_notify`, the `WaitEntry` objects living on the frames of the suspended
`wait` calls, the executor `_exec` that receives units of work through
`net::post`, and the cancellation slots connected by `wait`.

A wait call is identified by a natural number: the index of its `WaitEntry`
in the store `entries`.  The intrusive list holds references to entries, so
`_on_notify` is a list of such indices and `entry.is_linked()` is membership.
-/

namespace upnp

/-! ## Data model -/

/-- The type boost::system::error_code, reduced to its integer value. -/
structure error_code where
  value : Int
deriving DecidableEq, Repr

/-- The value `boost::system::error_code()`: the default argument of `notify`. -/
def error_code.default : error_code := ⟨0⟩

/-- The test `error_code::failed()`: a code reports failure iff its value is not zero. -/
def error_code.failed (ec : error_code) : Bool := ec.value != 0

/-- The constant `net::error::operation_aborted` (`ECANCELED`). -/
def operation_aborted : error_code := ⟨125⟩

/-- The completion handler of a suspended `wait` (`HandlerType`): `coro` is the
wait call it resumes, `moved` tells that the object was the source of a
`std::move` and no longer owns the continuation. -/
structure HandlerType where
  coro : Nat
  moved : Bool
deriving DecidableEq, Repr

/-- The struct `WaitEntry`: `std::optional<HandlerType> handler`.  The hook
linkage is not a field: an entry is linked iff its index is in `_on_notify`. -/
structure WaitEntry where
  handler : Option HandlerType
deriving DecidableEq, Repr

/-- A unit of work given to `net::post`: the closure `[h, ec] { h.value()(ec); }`
of `notify`, or `[h] { h.value()(operation_aborted); }` of the cancel slot. -/
structure Work where
  h : Option HandlerType
  ec : error_code
deriving DecidableEq, Repr

/-- Modelled from the spec: the type `cancel_t` of upnp/detail/cancel.h, a header
that condition_variable.h includes and whose text is missing.  A cancellation
signal is an object a caller passes per wait; `connect` subscribes a callback
that is invoked at most once, when the caller requests cancellation.  `signal c`
is a caller-owned signal, `dummy` is the local `dummy_cancel` of `wait(yield)`,
which nobody can trigger.  The lifetime of the connection object returned by
`connect` is not modelled: a slot stays connected until its signal fires. -/
inductive cancel_t where
  | signal (c : Nat)
  | dummy
deriving DecidableEq, Repr

/-- The state of one `ConditionVariable` and of its collaborators. -/
structure State where
  /-- The member `_on_notify`: references to the linked entries, head first. -/
  on_notify : List Nat
  /-- The `WaitEntry` object of every wait call made so far, by wait index. -/
  entries : List WaitEntry
  /-- The executor `_exec`: units of work posted and not yet run, oldest first. -/
  queue : List Work
  /-- History: every unit of work ever passed to `net::post`, in submission order. -/
  posted : List Work
  /-- History: every invocation of a resumption handle, as (wait, status). -/
  resumed : List (Nat × error_code)
  /-- The connected cancel slots, as (signal, entry captured by the callback). -/
  slots : List (cancel_t × Nat)
deriving DecidableEq, Repr

/-- The constructor `ConditionVariable(exec)`: empty list, nothing posted. -/
def State.init : State :=
  { on_notify := [], entries := [], queue := [], posted := [], resumed := [], slots := [] }

/-! ## Primitive operations -/

/-- The call `entry.is_linked()`. -/
def is_linked (s : State) (w : Nat) : Bool := decide (w ∈ s.on_notify)

/-- The call `entry.unlink()`: removes the node of the entry from the list. -/
def unlink (s : State) (w : Nat) : State :=
  { s with on_notify := s.on_notify.erase w }

/-- The content of `handler` in the entry of index `w` of a store (empty if there
is no such entry). -/
def entry_handler (es : List WaitEntry) (w : Nat) : Option HandlerType :=
  match es[w]? with
  | some e => e.handler
  | none => none

/-- The content of `entry.handler` for the entry of wait `w`. -/
def handler_of (s : State) (w : Nat) : Option HandlerType :=
  entry_handler s.entries w

/-- The state of an optional after `std::move` took its content: it stays engaged
and holds a moved-from handler. -/
def moved_from (e : WaitEntry) : WaitEntry :=
  ⟨e.handler.map (fun h => { h with moved := true })⟩

/-- The capture `h = std::move(entry.handler)`: the closure receives the content
of the optional, the entry keeps a moved-from one. -/
def move_handler (s : State) (w : Nat) : Option HandlerType × State :=
  (handler_of s w, { s with entries := s.entries.modify moved_from w })

/-- The call `net::post(_exec, u)`: the unit of work is queued, never run inline. -/
def post (s : State) (u : Work) : State :=
  { s with queue := s.queue ++ [u], posted := s.posted ++ [u] }

/-! ## ConditionVariable::notify -/

/-- One iteration of the loop of `notify` on a non-empty list:
`e = front(); post(_exec, [h = move(e.handler), ec]); pop_front()`. -/
def notify_body (s : State) (ec : error_code) : State :=
  match s.on_notify with
  | [] => s
  | e :: _ =>
    let m := move_handler s e
    let s1 := post m.2 ⟨m.1, ec⟩
    { s1 with on_notify := s1.on_notify.tail }

/-- The loop `while (!_on_notify.empty()) body`, with a bound on the number of
iterations. -/
def notify_loop : Nat → State → error_code → State
  | 0, s, _ => s
  | fuel + 1, s, ec =>
    if s.on_notify.isEmpty then s else notify_loop fuel (notify_body s ec) ec

/-- The method `ConditionVariable::notify(ec)`. -/
def notify (s : State) (ec : error_code) : State :=
  notify_loop s.on_notify.length s ec

/-- The call `notify()` with the default argument of the declaration. -/
def notify_default (s : State) : State := notify s error_code.default

/-- The destructor `~ConditionVariable()`: `notify(net::error::operation_aborted)`. -/
def destroy (s : State) : State := notify s operation_aborted

/-! ## ConditionVariable::wait -/

/-- The initiation of `wait(cancel, yield)`: a fresh `WaitEntry` receives the
handler, is pushed at the back of `_on_notify`, and the cancel callback
capturing it is connected to `cancel`.  The index of the new entry is
`s.entries.length`. -/
def wait (s : State) (cancel : cancel_t) : State :=
  let w := s.entries.length
  { s with entries := s.entries ++ [⟨some ⟨w, false⟩⟩],
           on_notify := s.on_notify ++ [w],
           slots := s.slots ++ [(cancel, w)] }

/-- The method `wait(yield)`: `cancel_t dummy_cancel; wait(dummy_cancel, yield)`. -/
def wait_plain (s : State) : State := wait s cancel_t.dummy

/-- The cancel callback connected by `wait` for the entry of wait `w`.  With
assertions compiled in (`ndebug = false`) an unlinked entry aborts the program
(`none`).  Otherwise: `if (entry.is_linked()) entry.unlink();` followed by
`net::post(_exec, [h = std::move(entry.handler)] { h.value()(operation_aborted); })`. -/
def cancel_callback (ndebug : Bool) (s : State) (w : Nat) : Option State :=
  if !ndebug && !is_linked s w then none
  else
    let s1 := if is_linked s w then unlink s w else s
    let m := move_handler s1 w
    some (post m.2 ⟨m.1, operation_aborted⟩)

/-- Modelled from the spec: firing a cancellation signal, an operation of the
missing header upnp/detail/cancel.h.  The callbacks connected to signal `c` are
invoked in connection order and are disconnected, so that each is invoked at
most once. -/
def fire (ndebug : Bool) (s : State) (c : Nat) : Option State :=
  let mine := s.slots.filter (fun sl => sl.1 = cancel_t.signal c)
  let s0 := { s with slots := s.slots.filter (fun sl => sl.1 ≠ cancel_t.signal c) }
  mine.foldlM (fun st sl => cancel_callback ndebug st sl.2) s0

/-! ## The executor -/

/-- The executor runs the oldest pending unit of work: `h.value()(ec)`.  A handler
that owns its continuation resumes its wait with `ec`; the wait call then
returns and its entry goes out of scope (an auto-unlink hook unlinks itself).
Calling an empty optional or a moved-from handler is a fault (`none`). -/
def run (s : State) : Option State :=
  match s.queue with
  | [] => some s
  | u :: q =>
    match u.h with
    | some ⟨w, false⟩ =>
      some { s with queue := q, resumed := s.resumed ++ [(w, u.ec)],
                    on_notify := s.on_notify.erase w }
    | _ => none

/-! ## Event sequences -/

/-- The operations a client and the executor can perform on one ConditionVariable. -/
inductive Event where
  | wait (cancel : cancel_t)
  | notify (ec : error_code)
  | cancel (c : Nat)
  | run
  | destroy
deriving DecidableEq, Repr

/-- The effect of one event; `none` is an assertion failure or a fault. -/
def step (ndebug : Bool) (s : State) : Event → Option State
  | Event.wait c => some (wait s c)
  | Event.notify ec => some (notify s ec)
  | Event.cancel c => fire ndebug s c
  | Event.run => run s
  | Event.destroy => some (destroy s)

/-- The effect of a sequence of events, from left to right. -/
def exec (ndebug : Bool) (s : State) (es : List Event) : Option State :=
  es.foldlM (step ndebug) s

/-- The units of work in `us` whose handler belongs to wait `w`. -/
def units_for (us : List Work) (w : Nat) : List Work :=
  us.filter (fun u => decide (u.h.map HandlerType.coro = some w))

/-- The unit of work that resumes wait `w` with status `ec`. -/
def wake (ec : error_code) (w : Nat) : Work := ⟨some ⟨w, false⟩, ec⟩

/-- The units of work submitted to the executor between state `s` and a later
state `t`. -/
def submitted_by (s t : State) : List Work := t.posted.drop s.posted.length

/-- Well-formed states: no entry is linked twice, every linked entry exists and
still owns the handler of its own wait, the handler stored in any entry belongs
to the wait of that entry, and every cancel slot captures an existing entry. -/
def WF (s : State) : Prop :=
  s.on_notify.Nodup ∧ (∀ w ∈ s.on_notify, handler_of s w = some ⟨w, false⟩) ∧
  (∀ w < s.entries.length, ∀ h ∈ handler_of s w, h.coro = w) ∧
  (∀ sl ∈ s.slots, sl.2 < s.entries.length)

instance (s : State) : Decidable (WF s) := by
  unfold WF; infer_instance

/-- The cancel slots capturing the entry of wait `W` are connected to `c` only,
and the entry exists. -/
def own_slot (W : Nat) (c : cancel_t) (s : State) : Prop :=
  W < s.entries.length ∧ ∀ x, (x, W) ∈ s.slots → x = c

/-- The histories are consistent with the list: a handler held by a submitted unit
of work belongs to an existing wait whose entry is not linked, every pending
unit of work was submitted, and every invocation of a handle ran a submitted
wake of that wait with that status. -/
def Hist (s : State) : Prop :=
  (∀ u ∈ s.posted, ∀ h ∈ u.h, h.coro < s.entries.length ∧ h.coro ∉ s.on_notify) ∧
  (∀ u ∈ s.queue, u ∈ s.posted) ∧
  (∀ r ∈ s.resumed, wake r.2 r.1 ∈ s.posted)

instance (s : State) : Decidable (Hist s) := by
  unfold Hist; infer_instance

/-- The same state with other cancel slots. -/
def set_slots (s : State) (sl : List (cancel_t × Nat)) : State :=
  { s with slots := sl }

/-- What the ConditionVariable and the executor show of a state: the waiter list,
the entries, the pending units of work and the two histories; the cancel slots,
which belong to the signals of the callers, are left out. -/
def observable (s : State) :
    List Nat × List WaitEntry × List Work × List Work × List (Nat × error_code) :=
  (s.on_notify, s.entries, s.queue, s.posted, s.resumed)

/-- Two states that show the same and whose slots agree on every signal but `c`. -/
def same_but_signal (c : Nat) (s t : State) : Prop :=
  observable s = observable t ∧
  ∀ c', c' ≠ c → s.slots.filter (fun sl => sl.1 = cancel_t.signal c')
                = t.slots.filter (fun sl => sl.1 = cancel_t.signal c')

/-- The number of iterations the loop of `notify` performs: the recursion of
`notify_loop`, counting each pass through the body. -/
def notify_iterations : Nat → State → error_code → Nat
  | 0, _, _ => 0
  | fuel + 1, s, ec =>
    if s.on_notify.isEmpty then 0 else notify_iterations fuel (notify_body s ec) ec + 1

/-- No entry is captured by two cancel slots: each wait connects one callback. -/
def slots_distinct (s : State) : Prop := (s.slots.map Prod.snd).Nodup

instance (s : State) : Decidable (slots_distinct s) := by
  unfold slots_distinct; infer_instance

/-- Every slot connected to signal `c` captures an entry that is still linked. -/
def slots_linked (c : Nat) (s : State) : Prop :=
  ∀ sl ∈ s.slots, sl.1 = cancel_t.signal c → sl.2 ∈ s.on_notify

instance (c : Nat) (s : State) : Decidable (slots_linked c s) := by
  unfold slots_linked; infer_instance

/-- The events that are neither a `notify`, nor the destruction, nor a firing of
signal `c`: registrations, executor steps and firings of other signals. -/
def quiet (c : Nat) : Event → Bool
  | Event.notify _ => false
  | Event.destroy => false
  | Event.cancel c' => c' != c
  | Event.wait _ => true
  | Event.run => true

/-! ## Sample states -/

/-- Three waits registered in this order: one on signal 0, a plain one, one on
signal 1. -/
def three_waiters : State :=
  wait (wait_plain (wait State.init (cancel_t.signal 0))) (cancel_t.signal 1)

/-- One wait registered on signal 0, then `notify()`: the entry is unlinked and
its wake is pending in the executor. -/
def notified_waiter : State :=
  notify_default (wait State.init (cancel_t.signal 0))

/-- A plain wait registered on a fresh ConditionVariable, woken by the destructor
and resumed by the executor. -/
def aborted_plain_wait : State :=
  { on_notify := [], entries := [⟨some ⟨0, true⟩⟩], queue := [],
    posted := [wake operation_aborted 0], resumed := [(0, operation_aborted)],
    slots := [(cancel_t.dummy, 0)] }

/-- The three waiters followed by two waits on signal 0, which the first waiter
also uses, and a plain wait. -/
def shared_signal : State :=
  wait_plain (wait (wait three_waiters (cancel_t.signal 0)) (cancel_t.signal 0))

/-! ## Lemmas on the store of entries -/

theorem entry_handler_modify (es : List WaitEntry) (e w : Nat) :
    entry_handler (es.modify moved_from e) w =
      if e = w then (entry_handler es w).map (fun h => { h with moved := true })
      else entry_handler es w := by
  unfold entry_handler
  rw [List.getElem?_modify]
  cases hw : es[w]? with
  | none => simp
  | some x => by_cases h : e = w <;> simp [h, moved_from]

theorem entry_handler_append (es : List WaitEntry) (x : WaitEntry) (w : Nat) :
    entry_handler (es ++ [x]) w =
      if w < es.length then entry_handler es w
      else if w = es.length then x.handler else none := by
  unfold entry_handler
  by_cases h1 : w < es.length
  · simp [h1, List.getElem?_append_left h1]
  · by_cases h2 : w = es.length
    · subst h2; simp
    · have h3 : es.length + 1 ≤ w := by omega
      have : (es ++ [x])[w]? = none := List.getElem?_eq_none (by simpa using h3)
      simp [h1, h2, this]

theorem entry_handler_lt (es : List WaitEntry) (w : Nat) (h : HandlerType)
    (hw : entry_handler es w = some h) : w < es.length := by
  unfold entry_handler at hw
  by_contra hc
  have : es[w]? = none := List.getElem?_eq_none (by omega)
  simp [this] at hw

theorem WF.coro {s : State} (hwf : WF s) {w : Nat} {h : HandlerType}
    (hw : handler_of s w = some h) : h.coro = w :=
  hwf.2.2.1 w (entry_handler_lt _ _ _ hw) h hw

theorem WF.lt {s : State} (hwf : WF s) {w : Nat} (hw : w ∈ s.on_notify) :
    w < s.entries.length :=
  entry_handler_lt _ _ _ (hwf.2.1 w hw)

theorem WF_init : WF State.init := by decide

/-- Moving the handler out of an entry that is not linked, dropping slots, or
changing the queue and the histories, keeps a state well formed. -/
theorem WF_move (s : State) (e : Nat) (l : List Nat) (q p : List Work)
    (r : List (Nat × error_code)) (sl : List (cancel_t × Nat)) (hwf : WF s)
    (hnd : l.Nodup) (hsub : ∀ w ∈ l, w ∈ s.on_notify) (he : e ∉ l)
    (hsl : ∀ x ∈ sl, x ∈ s.slots) :
    WF { on_notify := l, entries := s.entries.modify moved_from e, queue := q, posted := p,
         resumed := r, slots := sl } := by
  refine ⟨hnd, ?_, ?_, ?_⟩
  · intro w hw
    have hne : e ≠ w := fun h => he (h ▸ hw)
    simp only [handler_of, entry_handler_modify, if_neg hne]
    exact hwf.2.1 w (hsub w hw)
  · intro w hw h hh
    simp only [handler_of, entry_handler_modify] at hh
    simp only [List.length_modify] at hw
    by_cases hew : e = w
    · simp only [if_pos hew] at hh
      cases hc : entry_handler s.entries w with
      | none => simp [hc] at hh
      | some h0 =>
        simp [hc] at hh
        have := hwf.2.2.1 w hw h0 hc
        rw [← hh]; exact this
    · simp only [if_neg hew] at hh
      exact hwf.2.2.1 w hw h hh
  · intro x hx
    simp only [List.length_modify]
    exact hwf.2.2.2 x (hsl x hx)

/-- Dropping linked entries or slots, or changing the queue and the histories,
keeps a state well formed. -/
theorem WF_sub (s : State) (l : List Nat) (q p : List Work)
    (r : List (Nat × error_code)) (sl : List (cancel_t × Nat)) (hwf : WF s)
    (hnd : l.Nodup) (hsub : ∀ w ∈ l, w ∈ s.on_notify) (hsl : ∀ x ∈ sl, x ∈ s.slots) :
    WF { on_notify := l, entries := s.entries, queue := q, posted := p,
         resumed := r, slots := sl } :=
  ⟨hnd, fun w hw => hwf.2.1 w (hsub w hw), hwf.2.2.1, fun x hx => hwf.2.2.2 x (hsl x hx)⟩

/-! ## Lemmas on `notify` -/

theorem notify_body_cons (s : State) (ec : error_code) (e : Nat) (rest : List Nat)
    (h : s.on_notify = e :: rest) :
    notify_body s ec =
      { on_notify := rest,
        entries := s.entries.modify moved_from e,
        queue := s.queue ++ [⟨handler_of s e, ec⟩],
        posted := s.posted ++ [⟨handler_of s e, ec⟩],
        resumed := s.resumed,
        slots := s.slots } := by
  simp [notify_body, h, move_handler, post]

theorem notify_loop_nil (fuel : Nat) (s : State) (ec : error_code) (h : s.on_notify = []) :
    notify_loop fuel s ec = s := by
  cases fuel <;> simp [notify_loop, h]

theorem notify_loop_cons (fuel : Nat) (s : State) (ec : error_code) (e : Nat) (rest : List Nat)
    (h : s.on_notify = e :: rest) :
    notify_loop (fuel + 1) s ec = notify_loop fuel (notify_body s ec) ec := by
  simp [notify_loop, h]

theorem WF_notify_body (s : State) (ec : error_code) (e : Nat) (rest : List Nat)
    (h : s.on_notify = e :: rest) (hwf : WF s) : WF (notify_body s ec) := by
  have hnd := hwf.1
  rw [h] at hnd
  rw [notify_body_cons s ec e rest h]
  exact WF_move s e rest _ _ _ _ hwf (List.nodup_cons.mp hnd).2
    (fun w hw => by rw [h]; exact List.mem_cons_of_mem _ hw) (List.nodup_cons.mp hnd).1
    (fun _ hx => hx)

/-- The loop of `notify`, run with enough fuel on any state: the list ends empty,
one unit of work per iteration is appended to the queue, each carrying `ec`,
and nothing else but the content of the entries changes. -/
theorem notify_loop_spec (ec : error_code) :
    ∀ (fuel : Nat) (s : State), s.on_notify.length ≤ fuel →
      (notify_loop fuel s ec).on_notify = [] ∧
      (notify_loop fuel s ec).resumed = s.resumed ∧
      (notify_loop fuel s ec).slots = s.slots ∧
      (notify_loop fuel s ec).entries.length = s.entries.length ∧
      ∃ us : List Work, us.length = s.on_notify.length ∧ (∀ u ∈ us, u.ec = ec) ∧
        (notify_loop fuel s ec).queue = s.queue ++ us ∧
        (notify_loop fuel s ec).posted = s.posted ++ us := by
  intro fuel
  induction fuel with
  | zero =>
    intro s hs
    have h0 : s.on_notify = [] := List.length_eq_zero.mp (Nat.le_zero.mp hs)
    exact ⟨by simp [notify_loop, h0], rfl, rfl, rfl, [], by simp [h0], by simp,
      by simp [notify_loop], by simp [notify_loop]⟩
  | succ n ih =>
    intro s hs
    cases h : s.on_notify with
    | nil =>
      rw [notify_loop_nil _ _ _ h]
      exact ⟨h, rfl, rfl, rfl, [], by simp, by simp, by simp, by simp⟩
    | cons e rest =>
      rw [notify_loop_cons n s ec e rest h]
      have hb := notify_body_cons s ec e rest h
      have hlen : (notify_body s ec).on_notify.length ≤ n := by
        rw [hb]; rw [h] at hs; simpa using hs
      obtain ⟨h1, h2, h3, h4, us, hu1, hu2, hu3, hu4⟩ := ih (notify_body s ec) hlen
      refine ⟨h1, ?_, ?_, ?_, ⟨handler_of s e, ec⟩ :: us, ?_, ?_, ?_, ?_⟩
      · rw [h2, hb]
      · rw [h3, hb]
      · rw [h4, hb]; simp
      · rw [hb] at hu1; simp [hu1]
      · intro u hu
        rcases List.mem_cons.mp hu with rfl | hu
        · rfl
        · exact hu2 u hu
      · rw [hu3, hb]; simp
      · rw [hu4, hb]; simp

/-- The loop of `notify` on a well-formed state: the units of work appended are
the wakes of the linked entries, in list order, and the state stays well formed. -/
theorem notify_loop_wf (ec : error_code) :
    ∀ (fuel : Nat) (s : State), s.on_notify.length ≤ fuel → WF s →
      WF (notify_loop fuel s ec) ∧
      (notify_loop fuel s ec).queue = s.queue ++ s.on_notify.map (wake ec) ∧
      (notify_loop fuel s ec).posted = s.posted ++ s.on_notify.map (wake ec) := by
  intro fuel
  induction fuel with
  | zero =>
    intro s hs hwf
    have h0 : s.on_notify = [] := List.length_eq_zero.mp (Nat.le_zero.mp hs)
    simp [notify_loop, h0, hwf]
  | succ n ih =>
    intro s hs hwf
    cases h : s.on_notify with
    | nil => rw [notify_loop_nil _ _ _ h]; simp [hwf]
    | cons e rest =>
      rw [notify_loop_cons n s ec e rest h]
      have hb := notify_body_cons s ec e rest h
      have hlen : (notify_body s ec).on_notify.length ≤ n := by
        rw [hb]; rw [h] at hs; simpa using hs
      obtain ⟨h0, h1, h2⟩ := ih (notify_body s ec) hlen (WF_notify_body s ec e rest h hwf)
      have he : handler_of s e = some ⟨e, false⟩ :=
        hwf.2.1 e (by rw [h]; exact List.mem_cons_self _ _)
      refine ⟨h0, ?_, ?_⟩
      · rw [h1, hb]; simp [he, wake]
      · rw [h2, hb]; simp [he, wake]

theorem notify_on_notify (s : State) (ec : error_code) : (notify s ec).on_notify = [] :=
  (notify_loop_spec ec _ s (Nat.le_refl _)).1

theorem notify_resumed (s : State) (ec : error_code) : (notify s ec).resumed = s.resumed :=
  (notify_loop_spec ec _ s (Nat.le_refl _)).2.1

theorem notify_slots (s : State) (ec : error_code) : (notify s ec).slots = s.slots :=
  (notify_loop_spec ec _ s (Nat.le_refl _)).2.2.1

theorem notify_entries_length (s : State) (ec : error_code) :
    (notify s ec).entries.length = s.entries.length :=
  (notify_loop_spec ec _ s (Nat.le_refl _)).2.2.2.1

theorem notify_units (s : State) (ec : error_code) :
    ∃ us : List Work, us.length = s.on_notify.length ∧ (∀ u ∈ us, u.ec = ec) ∧
      (notify s ec).queue = s.queue ++ us ∧ (notify s ec).posted = s.posted ++ us :=
  (notify_loop_spec ec _ s (Nat.le_refl _)).2.2.2.2

theorem WF_notify (s : State) (ec : error_code) (hwf : WF s) : WF (notify s ec) :=
  (notify_loop_wf ec _ s (Nat.le_refl _) hwf).1

theorem notify_queue_wf (s : State) (ec : error_code) (hwf : WF s) :
    (notify s ec).queue = s.queue ++ s.on_notify.map (wake ec) :=
  (notify_loop_wf ec _ s (Nat.le_refl _) hwf).2.1

theorem notify_posted_wf (s : State) (ec : error_code) (hwf : WF s) :
    (notify s ec).posted = s.posted ++ s.on_notify.map (wake ec) :=
  (notify_loop_wf ec _ s (Nat.le_refl _) hwf).2.2

theorem submitted_by_notify_wf (s : State) (ec : error_code) (hwf : WF s) :
    submitted_by s (notify s ec) = s.on_notify.map (wake ec) := by
  simp [submitted_by, notify_posted_wf s ec hwf]

/-- More fuel than the length of the list does not change the result of the loop. -/
theorem notify_loop_enough (ec : error_code) (fuel : Nat) (s : State)
    (h : s.on_notify.length ≤ fuel) : notify_loop fuel s ec = notify s ec := by
  induction fuel generalizing s with
  | zero =>
    have h0 : s.on_notify = [] := List.length_eq_zero.mp (Nat.le_zero.mp h)
    simp [notify, h0, notify_loop]
  | succ n ih =>
    cases hs : s.on_notify with
    | nil => rw [notify_loop_nil _ _ _ hs, notify, notify_loop_nil _ _ _ hs]
    | cons e rest =>
      have hb := notify_body_cons s ec e rest hs
      have hlen : (notify_body s ec).on_notify.length ≤ n := by
        rw [hb]; rw [hs] at h; simpa using h
      rw [notify_loop_cons n s ec e rest hs, ih _ hlen]
      unfold notify
      rw [hs, List.length_cons, notify_loop_cons rest.length s ec e rest hs]
      congr 1
      rw [hb]

theorem units_for_map_wake (ec : error_code) (l : List Nat) (w : Nat) :
    units_for (l.map (wake ec)) w = (l.filter (fun x => decide (x = w))).map (wake ec) := by
  induction l with
  | nil => rfl
  | cons a l ih =>
    simp only [units_for] at ih
    by_cases h : a = w
    · simp [units_for, wake, h, List.filter_cons] at ih ⊢
      exact ih
    · simp [units_for, wake, h, List.filter_cons] at ih ⊢
      exact ih

/-! ## Lemmas on `wait`, the cancel callback and the executor -/

theorem WF_wait (s : State) (c : cancel_t) (hwf : WF s) : WF (wait s c) := by
  refine ⟨?_, ?_, ?_, ?_⟩
  · show (s.on_notify ++ [s.entries.length]).Nodup
    rw [List.nodup_append]
    refine ⟨hwf.1, List.nodup_singleton _, ?_⟩
    intro a ha hb
    have h1 := hwf.lt ha
    have h2 : a = s.entries.length := by simpa using hb
    omega
  · intro w hw
    have hw' : w ∈ s.on_notify ++ [s.entries.length] := hw
    show entry_handler (s.entries ++ [⟨some ⟨s.entries.length, false⟩⟩]) w = _
    rw [entry_handler_append]
    rcases List.mem_append.mp hw' with h | h
    · rw [if_pos (hwf.lt h)]; exact hwf.2.1 w h
    · have h2 : w = s.entries.length := by simpa using h
      subst h2; simp
  · intro w hw h hh
    have hh' : entry_handler (s.entries ++ [⟨some ⟨s.entries.length, false⟩⟩]) w = some h := hh
    rw [entry_handler_append] at hh'
    by_cases h1 : w < s.entries.length
    · rw [if_pos h1] at hh'; exact hwf.2.2.1 w h1 h hh'
    · rw [if_neg h1] at hh'
      by_cases h2 : w = s.entries.length
      · rw [if_pos h2] at hh'
        simp at hh'
        rw [← hh']; exact h2.symm
      · rw [if_neg h2] at hh'; cases hh'
  · intro x hx
    have hx' : x ∈ s.slots ++ [(c, s.entries.length)] := hx
    show x.2 < (s.entries ++ [(⟨some ⟨s.entries.length, false⟩⟩ : WaitEntry)]).length
    rw [List.length_append]
    rcases List.mem_append.mp hx' with h | h
    · have := hwf.2.2.2 x h; omega
    · have h2 : x = (c, s.entries.length) := by simpa using h
      subst h2; simp

/-- The cancel callback, whenever it returns: the entry is out of the list, its
handler is moved into one unit of work carrying `operation_aborted`. -/
theorem cancel_callback_some (nd : Bool) (s s' : State) (w : Nat)
    (h : cancel_callback nd s w = some s') :
    s' = { on_notify := s.on_notify.erase w,
           entries := s.entries.modify moved_from w,
           queue := s.queue ++ [⟨handler_of s w, operation_aborted⟩],
           posted := s.posted ++ [⟨handler_of s w, operation_aborted⟩],
           resumed := s.resumed,
           slots := s.slots } := by
  unfold cancel_callback at h
  by_cases hl : w ∈ s.on_notify
  · simp [is_linked, hl, unlink, move_handler, post, handler_of] at h
    rw [← h]; rfl
  · cases nd
    · simp [is_linked, hl] at h
    · simp [is_linked, hl, move_handler, post, handler_of] at h
      rw [← h, List.erase_of_not_mem hl]; rfl

/-- On a linked entry the cancel callback returns, with or without assertions. -/
theorem cancel_callback_linked (nd : Bool) (s : State) (w : Nat) (hl : w ∈ s.on_notify) :
    cancel_callback nd s w =
      some { on_notify := s.on_notify.erase w,
             entries := s.entries.modify moved_from w,
             queue := s.queue ++ [⟨handler_of s w, operation_aborted⟩],
             posted := s.posted ++ [⟨handler_of s w, operation_aborted⟩],
             resumed := s.resumed,
             slots := s.slots } := by
  cases nd <;> simp [cancel_callback, is_linked, hl, unlink, move_handler, post, handler_of]

theorem WF_cancel_callback (nd : Bool) (s s' : State) (w : Nat) (hwf : WF s)
    (h : cancel_callback nd s w = some s') : WF s' := by
  rw [cancel_callback_some nd s s' w h]
  exact WF_move s w _ _ _ _ _ hwf (hwf.1.erase w) (fun x hx => List.mem_of_mem_erase hx)
    (fun hx => ((hwf.1.mem_erase_iff).mp hx).1 rfl) (fun _ hx => hx)

/-- A run of cancel callbacks, one per slot of `l`: when it returns, only units of
work carrying `operation_aborted` for entries of `l` were appended. -/
theorem callbacks_spec (nd : Bool) :
    ∀ (l : List (cancel_t × Nat)) (s s' : State), WF s →
      l.foldlM (fun st sl => cancel_callback nd st sl.2) s = some s' →
      WF s' ∧ s'.resumed = s.resumed ∧ s'.slots = s.slots ∧
      s'.entries.length = s.entries.length ∧
      ∃ us : List Work, s'.posted = s.posted ++ us ∧ s'.queue = s.queue ++ us ∧
        ∀ u ∈ us, u.ec = operation_aborted ∧ ∀ h ∈ u.h, ∃ sl ∈ l, h.coro = sl.2 := by
  intro l
  induction l with
  | nil =>
    intro s s' hwf h
    simp at h
    subst h
    exact ⟨hwf, rfl, rfl, rfl, [], by simp, by simp, by simp⟩
  | cons a l ih =>
    intro s s' hwf h
    rw [List.foldlM_cons] at h
    cases hc : cancel_callback nd s a.2 with
    | none => simp [hc] at h
    | some s1 =>
      simp [hc] at h
      have hwf1 := WF_cancel_callback nd s s1 a.2 hwf hc
      obtain ⟨k0, k1, k2, kl, us, k3, k4, k5⟩ := ih s1 s' hwf1 h
      have hs1 := cancel_callback_some nd s s1 a.2 hc
      refine ⟨k0, ?_, ?_, ?_, ⟨handler_of s a.2, operation_aborted⟩ :: us, ?_, ?_, ?_⟩
      · rw [k1, hs1]
      · rw [k2, hs1]
      · rw [kl, hs1]; simp
      · rw [k3, hs1]; simp
      · rw [k4, hs1]; simp
      · intro u hu
        rcases List.mem_cons.mp hu with rfl | hu
        · refine ⟨rfl, ?_⟩
          intro h0 hh0
          exact ⟨a, List.mem_cons_self _ _, hwf.coro hh0⟩
        · obtain ⟨e1, e2⟩ := k5 u hu
          refine ⟨e1, ?_⟩
          intro h0 hh0
          obtain ⟨sl, hsl, e3⟩ := e2 h0 hh0
          exact ⟨sl, List.mem_cons_of_mem _ hsl, e3⟩

/-- Firing a signal, when it returns, on a well-formed state. -/
theorem fire_spec (nd : Bool) (s s' : State) (c : Nat) (hwf : WF s)
    (h : fire nd s c = some s') :
    WF s' ∧ s'.resumed = s.resumed ∧
    s'.slots = s.slots.filter (fun sl => sl.1 ≠ cancel_t.signal c) ∧
    s'.entries.length = s.entries.length ∧
    ∃ us : List Work, s'.posted = s.posted ++ us ∧ s'.queue = s.queue ++ us ∧
      ∀ u ∈ us, u.ec = operation_aborted ∧
        ∀ h ∈ u.h, (cancel_t.signal c, h.coro) ∈ s.slots := by
  unfold fire at h
  have hwf0 : WF { s with slots := s.slots.filter (fun sl => sl.1 ≠ cancel_t.signal c) } :=
    WF_sub s _ _ _ _ _ hwf hwf.1 (fun _ hw => hw) (fun _ hx => (List.mem_filter.mp hx).1)
  obtain ⟨k0, k1, k2, kl, us, k3, k4, k5⟩ := callbacks_spec nd _ _ s' hwf0 h
  refine ⟨k0, k1, k2, kl, us, k3, k4, ?_⟩
  intro u hu
  obtain ⟨e1, e2⟩ := k5 u hu
  refine ⟨e1, ?_⟩
  intro h0 hh0
  obtain ⟨sl, hsl, e3⟩ := e2 h0 hh0
  have hm := List.mem_filter.mp hsl
  have h1 : sl.1 = cancel_t.signal c := by simpa using hm.2
  rw [e3, ← h1]
  exact hm.1

/-- The executor step, when it returns: either nothing was pending, or the oldest
unit of work held a handler owning its continuation, which was invoked. -/
theorem run_some (s s' : State) (h : run s = some s') :
    (s.queue = [] ∧ s' = s) ∨
    ∃ (u : Work) (q : List Work) (w : Nat), s.queue = u :: q ∧ u.h = some ⟨w, false⟩ ∧
      s' = { on_notify := s.on_notify.erase w, entries := s.entries, queue := q,
             posted := s.posted, resumed := s.resumed ++ [(w, u.ec)], slots := s.slots } := by
  unfold run at h
  cases hq : s.queue with
  | nil => simp [hq] at h; exact Or.inl ⟨rfl, h.symm⟩
  | cons u q =>
    right
    rw [hq] at h
    rcases u with ⟨uh, uec⟩
    cases uh with
    | none => simp at h
    | some hd =>
      rcases hd with ⟨w, m⟩
      cases m with
      | true => simp at h
      | false =>
        simp at h
        exact ⟨⟨some ⟨w, false⟩, uec⟩, q, w, rfl, rfl, h.symm⟩

theorem WF_run (s s' : State) (hwf : WF s) (h : run s = some s') : WF s' := by
  rcases run_some s s' h with ⟨_, rfl⟩ | ⟨u, q, w, _, _, rfl⟩
  · exact hwf
  · exact WF_sub s _ _ _ _ _ hwf (hwf.1.erase w) (fun x hx => List.mem_of_mem_erase hx)
      (fun _ hx => hx)

/-- Every event keeps a state well formed. -/
theorem WF_step (nd : Bool) (s s' : State) (e : Event) (hwf : WF s)
    (h : step nd s e = some s') : WF s' := by
  cases e with
  | wait c => simp [step] at h; subst h; exact WF_wait s c hwf
  | notify ec => simp [step] at h; subst h; exact WF_notify s ec hwf
  | cancel c => exact (fire_spec nd s s' c hwf h).1
  | run => exact WF_run s s' hwf h
  | destroy => simp [step] at h; subst h; exact WF_notify s _ hwf

/-- Every sequence of events keeps a state well formed. -/
theorem WF_exec (nd : Bool) (es : List Event) :
    ∀ (s s' : State), WF s → exec nd s es = some s' → WF s' := by
  induction es with
  | nil => intro s s' hwf h; simp [exec] at h; subst h; exact hwf
  | cons e es ih =>
    intro s s' hwf h
    unfold exec at h
    rw [List.foldlM_cons] at h
    cases hc : step nd s e with
    | none => simp [hc] at h
    | some s1 =>
      simp [hc] at h
      exact ih s1 s' (WF_step nd s s1 e hwf hc) h

/-! ## Lemmas on counting units of work -/

theorem filter_eq_nil_of_not_mem (l : List Nat) (w : Nat) (h : w ∉ l) :
    l.filter (fun x => decide (x = w)) = [] := by
  rw [List.filter_eq_nil_iff]
  intro a ha
  simp only [decide_eq_true_eq]
  rintro rfl
  exact h ha

theorem filter_eq_singleton_of_nodup (l : List Nat) (w : Nat) (hnd : l.Nodup) (h : w ∈ l) :
    l.filter (fun x => decide (x = w)) = [w] := by
  induction l with
  | nil => cases h
  | cons a l ih =>
    obtain ⟨ha, hl⟩ := List.nodup_cons.mp hnd
    by_cases haw : a = w
    · subst haw
      simp [List.filter_cons, filter_eq_nil_of_not_mem l a ha]
    · have hw : w ∈ l := by
        rcases List.mem_cons.mp h with h1 | h1
        · exact absurd h1.symm haw
        · exact h1
      simp [List.filter_cons, haw, ih hl hw]

theorem units_for_wakes_nil (ec : error_code) (l : List Nat) (w : Nat) (h : w ∉ l) :
    units_for (l.map (wake ec)) w = [] := by
  rw [units_for_map_wake, filter_eq_nil_of_not_mem l w h]; rfl

theorem units_for_wakes_one (ec : error_code) (l : List Nat) (w : Nat) (hnd : l.Nodup)
    (h : w ∈ l) : units_for (l.map (wake ec)) w = [wake ec w] := by
  rw [units_for_map_wake, filter_eq_singleton_of_nodup l w hnd h]; rfl

theorem submitted_by_append (s t : State) (us : List Work) (h : t.posted = s.posted ++ us) :
    submitted_by s t = us := by
  simp [submitted_by, h]

/-! ## Lemmas on single events -/

theorem wait_posted (s : State) (c : cancel_t) : (wait s c).posted = s.posted := rfl

theorem units_for_ne_nil {us : List Work} {W : Nat} (h : units_for us W ≠ []) :
    ∃ u ∈ us, ∃ hd : HandlerType, u.h = some hd ∧ hd.coro = W := by
  obtain ⟨u, hu⟩ := List.exists_mem_of_ne_nil _ h
  have hm := List.mem_filter.mp hu
  refine ⟨u, hm.1, ?_⟩
  have h2 : u.h.map HandlerType.coro = some W := by simpa using hm.2
  cases hh : u.h with
  | none => simp [hh] at h2
  | some hd =>
    simp [hh] at h2
    exact ⟨hd, rfl, h2⟩

/-- A run of cancel callbacks never invokes a handle, on any state. -/
theorem callbacks_resumed (nd : Bool) :
    ∀ (l : List (cancel_t × Nat)) (s s' : State),
      l.foldlM (fun st sl => cancel_callback nd st sl.2) s = some s' →
      s'.resumed = s.resumed := by
  intro l
  induction l with
  | nil => intro s s' h; simp at h; subst h; rfl
  | cons a l ih =>
    intro s s' h
    rw [List.foldlM_cons] at h
    cases hc : cancel_callback nd s a.2 with
    | none => simp [hc] at h
    | some s1 =>
      simp [hc] at h
      rw [ih s1 s' h, cancel_callback_some nd s s1 a.2 hc]

theorem fire_resumed (nd : Bool) (s s' : State) (c : Nat) (h : fire nd s c = some s') :
    s'.resumed = s.resumed := by
  unfold fire at h
  exact callbacks_resumed nd _
    { s with slots := s.slots.filter (fun sl => sl.1 ≠ cancel_t.signal c) } s' h

/-- On a well-formed state, a unit of work for wait `W` is submitted only by
`notify`, by the destructor, or by firing a signal connected to the slot of `W`. -/
theorem submit_only_by (nd : Bool) (st st' : State) (e : Event) (W : Nat) (hwf : WF st)
    (hs : step nd st e = some st') (hu : units_for (submitted_by st st') W ≠ []) :
    (∃ ec, e = Event.notify ec) ∨ e = Event.destroy ∨
    (∃ c, e = Event.cancel c ∧ (cancel_t.signal c, W) ∈ st.slots) := by
  cases e with
  | wait c =>
    simp [step] at hs; subst hs
    exact absurd (by simp [submitted_by, wait_posted, units_for]) hu
  | notify ec => exact Or.inl ⟨ec, rfl⟩
  | cancel c =>
    right; right
    refine ⟨c, rfl, ?_⟩
    obtain ⟨_, _, _, _, us, k3, _, k5⟩ := fire_spec nd st st' c hwf hs
    rw [submitted_by_append st st' us k3] at hu
    obtain ⟨u, hmem, hd, h1, h2⟩ := units_for_ne_nil hu
    have := (k5 u hmem).2 hd h1
    rw [h2] at this
    exact this
  | run =>
    rcases run_some st st' hs with ⟨_, rfl⟩ | ⟨u, q, w, _, _, rfl⟩
    · exact absurd (by simp [submitted_by, units_for]) hu
    · exact absurd (by simp [submitted_by, units_for]) hu
  | destroy => exact Or.inr (Or.inl rfl)

theorem own_slot_step (nd : Bool) (W : Nat) (c : cancel_t) (st st' : State) (e : Event)
    (hwf : WF st) (ho : own_slot W c st) (hs : step nd st e = some st') :
    own_slot W c st' := by
  obtain ⟨hlt, hsl⟩ := ho
  cases e with
  | wait c2 =>
    simp [step] at hs; subst hs
    refine ⟨?_, ?_⟩
    · show W < (st.entries ++ [(⟨some ⟨st.entries.length, false⟩⟩ : WaitEntry)]).length
      rw [List.length_append]; simp; omega
    · intro x hx
      have hx' : (x, W) ∈ st.slots ++ [(c2, st.entries.length)] := hx
      rcases List.mem_append.mp hx' with h | h
      · exact hsl x h
      · have h2 : (x, W) = (c2, st.entries.length) := by simpa using h
        have h3 : W = st.entries.length := (Prod.mk.inj h2).2
        omega
  | notify ec =>
    simp [step] at hs; subst hs
    exact ⟨by rw [notify_entries_length]; exact hlt, by rw [notify_slots]; exact hsl⟩
  | cancel c2 =>
    obtain ⟨_, _, k2, kl, _⟩ := fire_spec nd st st' c2 hwf hs
    refine ⟨by rw [kl]; exact hlt, ?_⟩
    intro x hx
    rw [k2] at hx
    exact hsl x (List.mem_filter.mp hx).1
  | run =>
    rcases run_some st st' hs with ⟨_, rfl⟩ | ⟨u, q, w, _, _, rfl⟩
    · exact ⟨hlt, hsl⟩
    · exact ⟨hlt, hsl⟩
  | destroy =>
    simp [step] at hs; subst hs
    exact ⟨by unfold destroy; rw [notify_entries_length]; exact hlt,
      by unfold destroy; rw [notify_slots]; exact hsl⟩

theorem own_slot_exec (nd : Bool) (W : Nat) (c : cancel_t) (es : List Event) :
    ∀ (s s' : State), WF s → own_slot W c s → exec nd s es = some s' →
      WF s' ∧ own_slot W c s' := by
  induction es with
  | nil => intro s s' hwf ho h; simp [exec] at h; subst h; exact ⟨hwf, ho⟩
  | cons e es ih =>
    intro s s' hwf ho h
    unfold exec at h
    rw [List.foldlM_cons] at h
    cases hc : step nd s e with
    | none => simp [hc] at h
    | some s1 =>
      simp [hc] at h
      exact ih s1 s' (WF_step nd s s1 e hwf hc) (own_slot_step nd W c s s1 e hwf ho hc) h

theorem own_slot_wait (s : State) (c : cancel_t) (hwf : WF s) :
    own_slot s.entries.length c (wait s c) := by
  refine ⟨?_, ?_⟩
  · show s.entries.length < (s.entries ++ [(⟨some ⟨s.entries.length, false⟩⟩ : WaitEntry)]).length
    rw [List.length_append]; simp
  · intro x hx
    have hx' : (x, s.entries.length) ∈ s.slots ++ [(c, s.entries.length)] := hx
    rcases List.mem_append.mp hx' with h | h
    · have := hwf.2.2.2 _ h
      simp at this
    · have h2 : (x, s.entries.length) = (c, s.entries.length) := by simpa using h
      exact (Prod.mk.inj h2).1

/-! ## The claims -/

/-- C1: on a well-formed state whose waiter list is W1, ..., Wn, one call
`notify(ec)` submits to the executor exactly the wakes of W1, ..., Wn, in this
order: the sequence of waits of the submitted units is the waiter list as it was
at the call, each listed waiter gets exactly one unit and no other wait gets any. -/
theorem notify_submits_in_registration_order (s : State) (ec : error_code) (hwf : WF s) :
    submitted_by s (notify s ec) = s.on_notify.map (wake ec) ∧
    (submitted_by s (notify s ec)).map (fun u => u.h.map HandlerType.coro)
      = s.on_notify.map some ∧
    (∀ w ∈ s.on_notify, units_for (submitted_by s (notify s ec)) w = [wake ec w]) ∧
    (∀ w, w ∉ s.on_notify → units_for (submitted_by s (notify s ec)) w = []) := by
  have h := submitted_by_notify_wf s ec hwf
  refine ⟨h, ?_, ?_, ?_⟩
  · rw [h, List.map_map]
    apply List.map_congr_left
    intro a _
    rfl
  · intro w hw
    rw [h]
    exact units_for_wakes_one ec _ w hwf.1 hw
  · intro w hw
    rw [h]
    exact units_for_wakes_nil ec _ w hw

theorem notify_submits_in_registration_order_witness :
    WF three_waiters ∧ three_waiters.on_notify = [0, 1, 2] ∧
    submitted_by three_waiters (notify three_waiters ⟨7⟩) = [wake ⟨7⟩ 0, wake ⟨7⟩ 1, wake ⟨7⟩ 2] :=
  ⟨by decide, by decide,
    (notify_submits_in_registration_order three_waiters ⟨7⟩ (by decide)).1⟩

/-- C2: the sequence wait(cancel), notify(), cancel fires, from a fresh
ConditionVariable.  Built without assertions, two units of work are submitted
for the one wait, the second with a moved-from handler; built with assertions,
the cancel callback aborts.  In neither build does the wait get exactly one. -/
theorem notify_then_cancel_submits_twice :
    (exec true State.init
        [Event.wait (cancel_t.signal 0), Event.notify error_code.default, Event.cancel 0]).map
      (fun s => (s.on_notify, units_for s.posted 0))
      = some ([], [⟨some ⟨0, false⟩, error_code.default⟩,
                   ⟨some ⟨0, true⟩, operation_aborted⟩]) ∧
    exec false State.init
        [Event.wait (cancel_t.signal 0), Event.notify error_code.default, Event.cancel 0]
      = none := by
  decide

/-- The cancel callback of a linked entry `w`, run on a well-formed state: in
either build, it returns; the entry is out of the waiter list on return;
exactly one unit of work was submitted, the wake of `w` with
`operation_aborted`; no handle was invoked; and a following `notify(ec)` submits
the wakes of the remaining waiters only, none for `w`. -/
theorem cancel_before_notify_aborts (nd : Bool) (s : State) (w : Nat) (ec : error_code)
    (hwf : WF s) (hl : w ∈ s.on_notify) :
    ∃ s', cancel_callback nd s w = some s' ∧
      s'.on_notify = s.on_notify.erase w ∧ is_linked s' w = false ∧
      submitted_by s s' = [wake operation_aborted w] ∧
      s'.queue = s.queue ++ [wake operation_aborted w] ∧
      s'.resumed = s.resumed ∧
      submitted_by s' (notify s' ec) = (s.on_notify.erase w).map (wake ec) ∧
      units_for (submitted_by s' (notify s' ec)) w = [] := by
  have hc := cancel_callback_linked nd s w hl
  have hh : handler_of s w = some ⟨w, false⟩ := hwf.2.1 w hl
  rw [hh] at hc
  have hnot : w ∉ s.on_notify.erase w := fun hx => ((hwf.1.mem_erase_iff).mp hx).1 rfl
  refine ⟨_, hc, rfl, ?_, ?_, rfl, rfl, ?_, ?_⟩
  · simp [is_linked, hnot]
  · simp [submitted_by, wake]
  · have hwf' := WF_cancel_callback nd s _ w hwf hc
    exact submitted_by_notify_wf _ ec hwf'
  · have hwf' := WF_cancel_callback nd s _ w hwf hc
    rw [submitted_by_notify_wf _ ec hwf']
    exact units_for_wakes_nil ec _ w hnot

theorem cancel_before_notify_aborts_witness :
    WF three_waiters ∧ 2 ∈ three_waiters.on_notify ∧
    ∃ s', cancel_callback false three_waiters 2 = some s' ∧
      s'.on_notify = three_waiters.on_notify.erase 2 ∧ is_linked s' 2 = false ∧
      submitted_by three_waiters s' = [wake operation_aborted 2] ∧
      s'.queue = three_waiters.queue ++ [wake operation_aborted 2] ∧
      s'.resumed = three_waiters.resumed ∧
      submitted_by s' (notify s' error_code.default)
        = (three_waiters.on_notify.erase 2).map (wake error_code.default) ∧
      units_for (submitted_by s' (notify s' error_code.default)) 2 = [] :=
  ⟨by decide, by decide,
    cancel_before_notify_aborts false three_waiters 2 error_code.default (by decide) (by decide)⟩

/-- C4: the cancel callback run on an entry that `notify` has already unlinked.
Built without assertions, it does act: it submits one more unit of work, holding
the moved-from handler, so the queue of the executor grows; built with
assertions, it aborts.  In neither build does it return with the state unchanged. -/
theorem cancel_callback_on_unlinked_entry_posts :
    is_linked notified_waiter 0 = false ∧
    notified_waiter.queue = [wake error_code.default 0] ∧
    (cancel_callback true notified_waiter 0).map (fun s => (s.on_notify, s.queue))
      = some ([], [wake error_code.default 0, ⟨some ⟨0, true⟩, operation_aborted⟩]) ∧
    cancel_callback false notified_waiter 0 = none := by
  decide

/-- C5: destroying a ConditionVariable in a well-formed state whose waiter list
holds N entries is `notify(operation_aborted)`: it leaves the list empty and
submits exactly N units of work, the wakes of the listed waiters with
`operation_aborted`, one per waiter. -/
theorem destroy_aborts_every_waiter (s : State) (N : Nat) (hwf : WF s)
    (hN : s.on_notify.length = N) :
    destroy s = notify s operation_aborted ∧
    (destroy s).on_notify = [] ∧
    (submitted_by s (destroy s)).length = N ∧
    submitted_by s (destroy s) = s.on_notify.map (wake operation_aborted) ∧
    (∀ w ∈ s.on_notify,
      units_for (submitted_by s (destroy s)) w = [wake operation_aborted w]) := by
  have h : submitted_by s (destroy s) = s.on_notify.map (wake operation_aborted) :=
    submitted_by_notify_wf s operation_aborted hwf
  refine ⟨rfl, notify_on_notify s _, ?_, h, ?_⟩
  · rw [h, List.length_map, hN]
  · intro w hw
    rw [h]
    exact units_for_wakes_one _ _ w hwf.1 hw

theorem destroy_aborts_every_waiter_witness :
    WF three_waiters ∧ three_waiters.on_notify.length = 3 ∧
    (destroy three_waiters).on_notify = [] ∧
    (submitted_by three_waiters (destroy three_waiters)).length = 3 :=
  ⟨by decide, by decide,
    (destroy_aborts_every_waiter three_waiters 3 (by decide) (by decide)).2.1,
    (destroy_aborts_every_waiter three_waiters 3 (by decide) (by decide)).2.2.1⟩

/-- C6: for every state and every status, the waiter list is empty when
`notify(ec)` returns; the loop reaches its exit test within as many iterations
as the list is long, and more fuel does not change the result. -/
theorem notify_leaves_list_empty (s : State) (ec : error_code) :
    (notify s ec).on_notify = [] ∧
    ∀ fuel, s.on_notify.length ≤ fuel →
      notify_loop fuel s ec = notify s ec ∧ (notify_loop fuel s ec).on_notify = [] := by
  refine ⟨notify_on_notify s ec, ?_⟩
  intro fuel hf
  have h := notify_loop_enough ec fuel s hf
  exact ⟨h, by rw [h]; exact notify_on_notify s ec⟩

/-- C7: every unit of work submitted by `notify(ec)` carries exactly `ec`, one unit
per listed waiter; `notify()` without argument is `notify(error_code())`, whose
units carry the success value (not failed). -/
theorem notify_delivers_given_status (s : State) (ec : error_code) :
    (∀ u ∈ submitted_by s (notify s ec), u.ec = ec) ∧
    (submitted_by s (notify s ec)).length = s.on_notify.length ∧
    notify_default s = notify s ⟨0⟩ ∧
    (∀ u ∈ submitted_by s (notify_default s),
      u.ec = error_code.default ∧ u.ec.failed = false) := by
  obtain ⟨us, h1, h2, _, h4⟩ := notify_units s ec
  obtain ⟨us', _, h2', _, h4'⟩ := notify_units s error_code.default
  refine ⟨?_, ?_, rfl, ?_⟩
  · rw [submitted_by_append s _ us h4]; exact h2
  · rw [submitted_by_append s _ us h4]; exact h1
  · intro u hu
    have hu' : u ∈ submitted_by s (notify s error_code.default) := hu
    rw [submitted_by_append s _ us' h4'] at hu'
    have := h2' u hu'
    rw [this]
    exact ⟨rfl, rfl⟩

/-- C8: `notify` on an empty waiter list returns the state unchanged (list empty,
nothing submitted), and is not remembered: registering a wait after it yields the
same state as registering without it, with the new entry linked and nothing
submitted for it. -/
theorem notify_without_waiters_is_noop (s : State) (ec : error_code) (c : cancel_t)
    (h : s.on_notify = []) :
    notify s ec = s ∧
    submitted_by s (notify s ec) = [] ∧
    wait (notify s ec) c = wait s c ∧
    (wait (notify s ec) c).on_notify = [s.entries.length] ∧
    submitted_by s (wait (notify s ec) c) = [] ∧
    (wait (notify s ec) c).queue = s.queue := by
  have hn : notify s ec = s := by
    unfold notify
    exact notify_loop_nil _ s ec h
  rw [hn]
  refine ⟨rfl, by simp [submitted_by], rfl, ?_, by simp [submitted_by, wait], rfl⟩
  simp [wait, h]

theorem notify_without_waiters_is_noop_witness :
    notified_waiter.on_notify = [] ∧
    notify notified_waiter ⟨5⟩ = notified_waiter ∧
    wait (notify notified_waiter ⟨5⟩) cancel_t.dummy = wait notified_waiter cancel_t.dummy :=
  ⟨by decide,
    (notify_without_waiters_is_noop notified_waiter ⟨5⟩ cancel_t.dummy (by decide)).1,
    (notify_without_waiters_is_noop notified_waiter ⟨5⟩ cancel_t.dummy (by decide)).2.2.1⟩

/-- C9: on a well-formed state with waiter list L, the units of work submitted by
`notify(ec)` are the wakes of the entries of L and none is for a wait W that
registers after the call returned; after W registers, the waiter list is exactly
W and the registration submitted nothing; a later `notify` does wake W; and along
every later sequence of events, a unit of work for W is submitted only by a
`notify`, by the destructor, or by firing the signal W was registered with. -/
theorem notify_wakes_only_earlier_waiters (nd : Bool) (s : State) (ec : error_code)
    (c : cancel_t) (hwf : WF s) :
    submitted_by s (notify s ec) = s.on_notify.map (wake ec) ∧
    units_for (submitted_by s (notify s ec)) s.entries.length = [] ∧
    (wait (notify s ec) c).on_notify = [s.entries.length] ∧
    submitted_by (notify s ec) (wait (notify s ec) c) = [] ∧
    (∀ ec2, submitted_by (wait (notify s ec) c) (notify (wait (notify s ec) c) ec2)
        = [wake ec2 s.entries.length]) ∧
    (∀ (es : List Event) (st st' : State) (e : Event),
        exec nd (wait (notify s ec) c) es = some st → step nd st e = some st' →
        units_for (submitted_by st st') s.entries.length ≠ [] →
          (∃ ec', e = Event.notify ec') ∨ e = Event.destroy ∨
          (∃ c', e = Event.cancel c' ∧ c = cancel_t.signal c')) := by
  have h := submitted_by_notify_wf s ec hwf
  have hwf1 := WF_notify s ec hwf
  have hwf2 := WF_wait (notify s ec) c hwf1
  have hlen := notify_entries_length s ec
  have hfresh : s.entries.length ∉ s.on_notify := fun hx => Nat.lt_irrefl _ (hwf.lt hx)
  have hlist : (wait (notify s ec) c).on_notify = [s.entries.length] := by
    show (notify s ec).on_notify ++ [(notify s ec).entries.length] = _
    rw [notify_on_notify, hlen]; rfl
  refine ⟨h, ?_, hlist, by simp [submitted_by, wait_posted], ?_, ?_⟩
  · rw [h]; exact units_for_wakes_nil ec _ _ hfresh
  · intro ec2
    rw [submitted_by_notify_wf _ ec2 hwf2, hlist]; rfl
  · intro es st st' e hex hst hu
    have ho : own_slot s.entries.length c (wait (notify s ec) c) := by
      have := own_slot_wait (notify s ec) c hwf1
      rw [hlen] at this
      exact this
    obtain ⟨hwfst, host⟩ := own_slot_exec nd _ c es _ st hwf2 ho hex
    rcases submit_only_by nd st st' e _ hwfst hst hu with h1 | h1 | ⟨c', h1, h2⟩
    · exact Or.inl h1
    · exact Or.inr (Or.inl h1)
    · exact Or.inr (Or.inr ⟨c', h1, (host.2 _ h2).symm⟩)

theorem notify_wakes_only_earlier_waiters_witness :
    WF three_waiters ∧
    submitted_by three_waiters (notify three_waiters ⟨7⟩)
      = [wake ⟨7⟩ 0, wake ⟨7⟩ 1, wake ⟨7⟩ 2] ∧
    (wait (notify three_waiters ⟨7⟩) (cancel_t.signal 9)).on_notify = [3] :=
  ⟨by decide,
    (notify_wakes_only_earlier_waiters false three_waiters ⟨7⟩ (cancel_t.signal 9)
      (by decide)).1,
    (notify_wakes_only_earlier_waiters false three_waiters ⟨7⟩ (cancel_t.signal 9)
      (by decide)).2.2.1⟩

/-- C10: `notify`, the destructor and the cancel callback never invoke a
resumption handle: the history of resumed waits is the same after as before,
and what they do for a woken wait is append units of work to the queue of the
executor (one per listed waiter for `notify` and the destructor, one for the
cancel callback).  Of all events only an executor step changes the history of
resumed waits, and it does so by running the oldest pending unit of work. -/
theorem wake_is_posted_never_inline (nd : Bool) (s : State) (ec : error_code) (w : Nat) :
    (notify s ec).resumed = s.resumed ∧
    (destroy s).resumed = s.resumed ∧
    (∃ us : List Work, us.length = s.on_notify.length ∧
      (notify s ec).queue = s.queue ++ us) ∧
    (∃ us : List Work, us.length = s.on_notify.length ∧
      (destroy s).queue = s.queue ++ us) ∧
    (cancel_callback true s w).isSome = true ∧
    (w ∈ s.on_notify → (cancel_callback nd s w).isSome = true) ∧
    (∀ s', cancel_callback nd s w = some s' →
      s'.resumed = s.resumed ∧ s'.queue = s.queue ++ [⟨handler_of s w, operation_aborted⟩]) ∧
    (∀ e s', step nd s e = some s' → s'.resumed ≠ s.resumed → e = Event.run) ∧
    (∀ s', run s = some s' → s'.resumed ≠ s.resumed →
      ∃ (u : Work) (q : List Work) (w' : Nat), s.queue = u :: q ∧ u.h = some ⟨w', false⟩ ∧
        s'.queue = q ∧ s'.resumed = s.resumed ++ [(w', u.ec)]) ∧
    (∀ (q : List Work) (ec' : error_code) (w' : Nat), s.queue = wake ec' w' :: q →
      (run s).map State.resumed = some (s.resumed ++ [(w', ec')])) := by
  refine ⟨notify_resumed s ec, notify_resumed s _, ?_, ?_, ?_, ?_, ?_, ?_, ?_, ?_⟩
  · obtain ⟨us, h1, _, h3, _⟩ := notify_units s ec
    exact ⟨us, h1, h3⟩
  · obtain ⟨us, h1, _, h3, _⟩ := notify_units s operation_aborted
    exact ⟨us, h1, h3⟩
  · simp [cancel_callback]
  · intro hl
    rw [cancel_callback_linked nd s w hl]; rfl
  · intro s' h
    rw [cancel_callback_some nd s s' w h]
    exact ⟨rfl, rfl⟩
  · intro e s' hs hr
    cases e with
    | wait c => simp [step] at hs; subst hs; exact absurd rfl hr
    | notify ec' => simp [step] at hs; subst hs; exact absurd (notify_resumed s ec') hr
    | cancel c => exact absurd (fire_resumed nd s s' c hs) hr
    | run => rfl
    | destroy => simp [step] at hs; subst hs; exact absurd (notify_resumed s _) hr
  · intro s' hs hr
    rcases run_some s s' hs with ⟨_, rfl⟩ | ⟨u, q, w', h1, h2, rfl⟩
    · exact absurd rfl hr
    · exact ⟨u, q, w', h1, h2, rfl, rfl⟩
  · intro q ec' w' hq
    simp [run, hq, wake]

/-- C14: the sequence wait(cancel), notify() leaves the cancel slot of the wait
connected while its entry is unlinked; when the signal then fires, the callback
runs on an unlinked entry: the assertion fails in a build with assertions, and
in a build without them the callback goes on to post. -/
theorem assertion_fails_after_notify :
    (cancel_t.signal 0, 0) ∈ notified_waiter.slots ∧
    is_linked notified_waiter 0 = false ∧
    fire false notified_waiter 0 = none ∧
    (fire true notified_waiter 0).map (fun s => s.queue.length) = some 2 := by
  decide

/-- C16: registering a wait appends its entry at the tail of the waiter list: the
list after is the list before followed by the new entry, the handlers of the
earlier entries are untouched, and nothing is submitted to the executor; the
same holds for the plain `wait(yield)`. -/
theorem wait_appends_at_tail (s : State) (c : cancel_t) :
    (wait s c).on_notify = s.on_notify ++ [s.entries.length] ∧
    (∀ w, w < s.entries.length → handler_of (wait s c) w = handler_of s w) ∧
    handler_of (wait s c) s.entries.length = some ⟨s.entries.length, false⟩ ∧
    (wait s c).queue = s.queue ∧
    submitted_by s (wait s c) = [] ∧
    (wait s c).resumed = s.resumed ∧
    (wait_plain s).on_notify = s.on_notify ++ [s.entries.length] ∧
    submitted_by s (wait_plain s) = [] := by
  refine ⟨rfl, ?_, ?_, rfl, by simp [submitted_by, wait_posted], rfl, rfl,
    by simp [submitted_by, wait_plain, wait_posted]⟩
  · intro w hw
    show entry_handler (s.entries ++ [⟨some ⟨s.entries.length, false⟩⟩]) w = _
    rw [entry_handler_append, if_pos hw]; rfl
  · show entry_handler (s.entries ++ [⟨some ⟨s.entries.length, false⟩⟩]) _ = _
    rw [entry_handler_append]; simp

/-- C17: on a well-formed state, the cancel callback of a linked entry `W` removes
`W` and nothing else: the list after is the list before without `W`, the other
entries in their order and with their handlers, and a following `notify(ec)`
submits the wakes of these remaining entries in that order and none for `W`. -/
theorem cancel_removes_only_its_entry (nd : Bool) (s : State) (W : Nat) (ec : error_code)
    (hwf : WF s) (hl : W ∈ s.on_notify) :
    ∃ s', cancel_callback nd s W = some s' ∧
      s'.on_notify = s.on_notify.filter (fun w => w ≠ W) ∧
      (∀ w, w ∈ s'.on_notify ↔ w ∈ s.on_notify ∧ w ≠ W) ∧
      List.Sublist s'.on_notify s.on_notify ∧
      (∀ w, w ≠ W → handler_of s' w = handler_of s w) ∧
      submitted_by s' (notify s' ec) = (s.on_notify.filter (fun w => w ≠ W)).map (wake ec) ∧
      units_for (submitted_by s' (notify s' ec)) W = [] := by
  have hc := cancel_callback_linked nd s W hl
  have hwf' := WF_cancel_callback nd s _ W hwf hc
  have he : s.on_notify.erase W = s.on_notify.filter (fun w => w ≠ W) := by
    rw [hwf.1.erase_eq_filter W]
    apply List.filter_congr
    intro x _
    by_cases hx : x = W <;> simp [hx]
  have hsub := submitted_by_notify_wf _ ec hwf'
  refine ⟨_, hc, he, ?_, ?_, ?_, ?_, ?_⟩
  · intro w
    show w ∈ s.on_notify.erase W ↔ _
    rw [hwf.1.mem_erase_iff]
    exact ⟨fun h => ⟨h.2, h.1⟩, fun h => ⟨h.2, h.1⟩⟩
  · exact List.erase_sublist W s.on_notify
  · intro w hw
    show entry_handler (s.entries.modify moved_from W) w = _
    rw [entry_handler_modify, if_neg (fun h => hw h.symm)]; rfl
  · rw [hsub]
    show (s.on_notify.erase W).map (wake ec) = _
    rw [he]
  · rw [hsub]
    exact units_for_wakes_nil ec _ W (fun hx => ((hwf.1.mem_erase_iff).mp hx).1 rfl)

theorem cancel_removes_only_its_entry_witness :
    WF three_waiters ∧ 1 ∈ three_waiters.on_notify ∧
    ∃ s', cancel_callback true three_waiters 1 = some s' ∧
      s'.on_notify = [0, 2] ∧
      submitted_by s' (notify s' ⟨0⟩) = [wake ⟨0⟩ 0, wake ⟨0⟩ 2] := by
  obtain ⟨s', h1, h2, _, _, _, h6, _⟩ :=
    cancel_removes_only_its_entry true three_waiters 1 ⟨0⟩ (by decide) (by decide)
  exact ⟨by decide, by decide, s', h1, by rw [h2]; decide, by rw [h6]; decide⟩

/-- C18: a second `notify` right after a first changes nothing: the state after
`notify(a); notify(b)` is the state after `notify(a)`, so the waiter list and
the sequence of submitted units of work are the same, and the second call
submits no unit (none carries `b` on its account, none is scheduled twice). -/
theorem second_notify_is_noop (s : State) (a b : error_code) :
    notify (notify s a) b = notify s a ∧
    (notify (notify s a) b).on_notify = (notify s a).on_notify ∧
    (notify (notify s a) b).posted = (notify s a).posted ∧
    (notify (notify s a) b).queue = (notify s a).queue ∧
    submitted_by (notify s a) (notify (notify s a) b) = [] ∧
    (∀ u ∈ submitted_by s (notify (notify s a) b), u.ec = a) := by
  have h : notify (notify s a) b = notify s a := by
    show notify_loop _ (notify s a) b = notify s a
    exact notify_loop_nil _ _ b (notify_on_notify s a)
  rw [h]
  refine ⟨rfl, rfl, rfl, rfl, by simp [submitted_by], ?_⟩
  obtain ⟨us, _, h2, _, h4⟩ := notify_units s a
  rw [submitted_by_append s _ us h4]
  exact h2

/-! ## Lemmas on the iterations of `notify` -/

theorem notify_body_on_notify (s : State) (ec : error_code) :
    (notify_body s ec).on_notify = s.on_notify.tail := by
  cases h : s.on_notify with
  | nil => simp [notify_body, h]
  | cons e rest => rw [notify_body_cons s ec e rest h]; rfl

theorem notify_iterations_enough (ec : error_code) :
    ∀ (fuel : Nat) (s : State), s.on_notify.length ≤ fuel →
      notify_iterations fuel s ec = s.on_notify.length := by
  intro fuel
  induction fuel with
  | zero =>
    intro s hs
    simp [notify_iterations, Nat.le_zero.mp hs]
  | succ n ih =>
    intro s hs
    cases h : s.on_notify with
    | nil => simp [notify_iterations, h]
    | cons e rest =>
      have hb : (notify_body s ec).on_notify = rest := by
        rw [notify_body_on_notify, h]; rfl
      have hlen : (notify_body s ec).on_notify.length ≤ n := by
        rw [hb]; rw [h] at hs; simpa using hs
      simp [notify_iterations, h, ih _ hlen, hb]

theorem iterate_body_on_notify (ec : error_code) :
    ∀ (k : Nat) (s : State),
      ((fun t => notify_body t ec)^[k] s).on_notify = s.on_notify.drop k := by
  intro k
  induction k with
  | zero => intro s; rfl
  | succ n ih =>
    intro s
    rw [Function.iterate_succ_apply, ih, notify_body_on_notify]
    cases s.on_notify <;> simp

theorem notify_loop_iterate (ec : error_code) :
    ∀ (n : Nat) (s : State), s.on_notify.length = n →
      notify_loop n s ec = (fun t => notify_body t ec)^[n] s := by
  intro n
  induction n with
  | zero => intro s _; rfl
  | succ n ih =>
    intro s hs
    cases h : s.on_notify with
    | nil => rw [h] at hs; cases hs
    | cons e rest =>
      have hb : (notify_body s ec).on_notify = rest := by
        rw [notify_body_on_notify, h]; rfl
      rw [notify_loop_cons n s ec e rest h, Function.iterate_succ_apply]
      apply ih
      rw [hb]; rw [h] at hs; simpa using hs

/-- C19: the loop of `notify` on a list of length n performs exactly n iterations,
whatever fuel at least n it is given: the list after k iterations is the list at
the call without its first k entries (so the loop test holds before each of the
n iterations and fails after the n-th), each iteration removes the head entry
and submits one unit of work, and n units are submitted in all. -/
theorem notify_iterates_once_per_waiter (s : State) (ec : error_code) :
    (∀ fuel, s.on_notify.length ≤ fuel →
      notify_iterations fuel s ec = s.on_notify.length) ∧
    notify s ec = (fun t => notify_body t ec)^[s.on_notify.length] s ∧
    (∀ k, ((fun t => notify_body t ec)^[k] s).on_notify = s.on_notify.drop k) ∧
    (∀ k, k < s.on_notify.length →
      ((fun t => notify_body t ec)^[k] s).on_notify.isEmpty = false) ∧
    (notify s ec).on_notify = [] ∧
    (∀ (t : State) (e : Nat) (rest : List Nat), t.on_notify = e :: rest →
      (notify_body t ec).on_notify = rest ∧
      (notify_body t ec).on_notify.length + 1 = t.on_notify.length ∧
      submitted_by t (notify_body t ec) = [⟨handler_of t e, ec⟩]) ∧
    (submitted_by s (notify s ec)).length = s.on_notify.length := by
  refine ⟨fun fuel hf => notify_iterations_enough ec fuel s hf,
    notify_loop_iterate ec _ s rfl, fun k => iterate_body_on_notify ec k s, ?_,
    notify_on_notify s ec, ?_, ?_⟩
  · intro k hk
    rw [iterate_body_on_notify]
    cases hd : s.on_notify.drop k with
    | nil =>
      have := List.drop_eq_nil_iff.mp hd
      omega
    | cons a l => rfl
  · intro t e rest ht
    rw [notify_body_cons t ec e rest ht]
    refine ⟨rfl, by rw [ht]; rfl, ?_⟩
    simp [submitted_by]
  · obtain ⟨us, h1, _, _, h4⟩ := notify_units s ec
    rw [submitted_by_append s _ us h4]; exact h1

/-! ## Lemmas on the histories -/

theorem Hist_init : Hist State.init := by decide

theorem Hist_wait (s : State) (c : cancel_t) (hh : Hist s) : Hist (wait s c) := by
  obtain ⟨h1, h2, h3⟩ := hh
  refine ⟨?_, h2, h3⟩
  intro u hu h hm
  obtain ⟨k1, k2⟩ := h1 u hu h hm
  refine ⟨?_, ?_⟩
  · show h.coro < (s.entries ++ [(⟨some ⟨s.entries.length, false⟩⟩ : WaitEntry)]).length
    rw [List.length_append]; simp; omega
  · intro hx
    have hx' : h.coro ∈ s.on_notify ++ [s.entries.length] := hx
    rcases List.mem_append.mp hx' with hx1 | hx1
    · exact k2 hx1
    · have : h.coro = s.entries.length := by simpa using hx1
      omega

theorem Hist_notify (s : State) (ec : error_code) (hwf : WF s) (hh : Hist s) :
    Hist (notify s ec) := by
  obtain ⟨h1, h2, h3⟩ := hh
  have hp := notify_posted_wf s ec hwf
  have hq := notify_queue_wf s ec hwf
  refine ⟨?_, ?_, ?_⟩
  · intro u hu h hm
    rw [notify_on_notify, notify_entries_length]
    refine ⟨?_, List.not_mem_nil _⟩
    rw [hp] at hu
    rcases List.mem_append.mp hu with hu1 | hu1
    · exact (h1 u hu1 h hm).1
    · obtain ⟨w, hw, rfl⟩ := List.mem_map.mp hu1
      have : h = ⟨w, false⟩ := by
        have hm' : (wake ec w).h = some h := hm
        simp [wake] at hm'
        exact hm'.symm
      rw [this]
      exact hwf.lt hw
  · intro u hu
    rw [hq] at hu
    rw [hp]
    rcases List.mem_append.mp hu with hu1 | hu1
    · exact List.mem_append_left _ (h2 u hu1)
    · exact List.mem_append_right _ hu1
  · intro r hr
    rw [notify_resumed] at hr
    rw [hp]
    exact List.mem_append_left _ (h3 r hr)

theorem Hist_cancel_callback (nd : Bool) (s s' : State) (w : Nat) (hwf : WF s) (hh : Hist s)
    (h : cancel_callback nd s w = some s') : Hist s' := by
  obtain ⟨h1, h2, h3⟩ := hh
  rw [cancel_callback_some nd s s' w h]
  refine ⟨?_, ?_, ?_⟩
  · intro u hu hd hm
    have hu' : u ∈ s.posted ++ [⟨handler_of s w, operation_aborted⟩] := hu
    show hd.coro < (s.entries.modify moved_from w).length ∧ hd.coro ∉ s.on_notify.erase w
    rw [List.length_modify]
    rcases List.mem_append.mp hu' with hu1 | hu1
    · obtain ⟨k1, k2⟩ := h1 u hu1 hd hm
      exact ⟨k1, fun hx => k2 (List.mem_of_mem_erase hx)⟩
    · have hu2 : u = ⟨handler_of s w, operation_aborted⟩ := by simpa using hu1
      subst hu2
      have hm' : handler_of s w = some hd := hm
      have hc : hd.coro = w := hwf.coro hm'
      rw [hc]
      exact ⟨entry_handler_lt _ _ _ hm', fun hx => ((hwf.1.mem_erase_iff).mp hx).1 rfl⟩
  · intro u hu
    have hu' : u ∈ s.queue ++ [⟨handler_of s w, operation_aborted⟩] := hu
    show u ∈ s.posted ++ [⟨handler_of s w, operation_aborted⟩]
    rcases List.mem_append.mp hu' with hu1 | hu1
    · exact List.mem_append_left _ (h2 u hu1)
    · exact List.mem_append_right _ hu1
  · intro r hr
    exact List.mem_append_left _ (h3 r hr)

theorem Hist_callbacks (nd : Bool) :
    ∀ (l : List (cancel_t × Nat)) (s s' : State), WF s → Hist s →
      l.foldlM (fun st sl => cancel_callback nd st sl.2) s = some s' → Hist s' := by
  intro l
  induction l with
  | nil => intro s s' _ hh h; simp at h; subst h; exact hh
  | cons a l ih =>
    intro s s' hwf hh h
    rw [List.foldlM_cons] at h
    cases hc : cancel_callback nd s a.2 with
    | none => simp [hc] at h
    | some s1 =>
      simp [hc] at h
      exact ih s1 s' (WF_cancel_callback nd s s1 a.2 hwf hc)
        (Hist_cancel_callback nd s s1 a.2 hwf hh hc) h

theorem Hist_fire (nd : Bool) (s s' : State) (c : Nat) (hwf : WF s) (hh : Hist s)
    (h : fire nd s c = some s') : Hist s' := by
  unfold fire at h
  have hwf0 : WF { s with slots := s.slots.filter (fun sl => sl.1 ≠ cancel_t.signal c) } :=
    WF_sub s _ _ _ _ _ hwf hwf.1 (fun _ hw => hw) (fun _ hx => (List.mem_filter.mp hx).1)
  exact Hist_callbacks nd _ _ s' hwf0 hh h

theorem Hist_run (s s' : State) (hh : Hist s) (h : run s = some s') : Hist s' := by
  obtain ⟨h1, h2, h3⟩ := hh
  rcases run_some s s' h with ⟨_, rfl⟩ | ⟨u, q, w, hq, hu, rfl⟩
  · exact ⟨h1, h2, h3⟩
  · refine ⟨?_, ?_, ?_⟩
    · intro v hv hd hm
      obtain ⟨k1, k2⟩ := h1 v hv hd hm
      exact ⟨k1, fun hx => k2 (List.mem_of_mem_erase hx)⟩
    · intro v hv
      exact h2 v (by rw [hq]; exact List.mem_cons_of_mem _ hv)
    · intro r hr
      have hr' : r ∈ s.resumed ++ [(w, u.ec)] := hr
      rcases List.mem_append.mp hr' with hr1 | hr1
      · exact h3 r hr1
      · have hr2 : r = (w, u.ec) := by simpa using hr1
        subst hr2
        have hup : u ∈ s.posted := h2 u (by rw [hq]; exact List.mem_cons_self _ _)
        have : wake u.ec w = u := by
          rcases u with ⟨uh, uec⟩
          simp [wake] at hu ⊢
          exact hu.symm
        show wake u.ec w ∈ s.posted
        rw [this]; exact hup

theorem Hist_step (nd : Bool) (s s' : State) (e : Event) (hwf : WF s) (hh : Hist s)
    (h : step nd s e = some s') : Hist s' := by
  cases e with
  | wait c => simp [step] at h; subst h; exact Hist_wait s c hh
  | notify ec => simp [step] at h; subst h; exact Hist_notify s ec hwf hh
  | cancel c => exact Hist_fire nd s s' c hwf hh h
  | run => exact Hist_run s s' hh h
  | destroy => simp [step] at h; subst h; exact Hist_notify s _ hwf hh

/-- Every sequence of events keeps a state well formed with consistent histories. -/
theorem Hist_exec (nd : Bool) (es : List Event) :
    ∀ (s s' : State), WF s → Hist s → exec nd s es = some s' → WF s' ∧ Hist s' := by
  induction es with
  | nil => intro s s' hwf hh h; simp [exec] at h; subst h; exact ⟨hwf, hh⟩
  | cons e es ih =>
    intro s s' hwf hh h
    unfold exec at h
    rw [List.foldlM_cons] at h
    cases hc : step nd s e with
    | none => simp [hc] at h
    | some s1 =>
      simp [hc] at h
      exact ih s1 s' (WF_step nd s s1 e hwf hc) (Hist_step nd s s1 e hwf hh hc) h

/-- In a well-formed state with consistent histories, a linked entry has no unit of
work submitted for its wait and its handle was never invoked. -/
theorem linked_not_woken (s : State) (hh : Hist s) (w : Nat) (hw : w ∈ s.on_notify) :
    units_for s.posted w = [] ∧ ∀ ec, (w, ec) ∉ s.resumed := by
  refine ⟨?_, ?_⟩
  · by_contra hne
    obtain ⟨u, hu, hd, h1, h2⟩ := units_for_ne_nil hne
    have := (hh.1 u hu hd h1).2
    rw [h2] at this
    exact this hw
  · intro ec hr
    have hp := hh.2.2 (w, ec) hr
    exact (hh.1 _ hp ⟨w, false⟩ rfl).2 hw

/-! ## Lemmas on the statuses of submitted units of work -/

/-- The units of work one event submits on a well-formed state, with the status
each carries: the argument of a `notify`, or `operation_aborted` from the
destructor or from the callback of a slot connected to the fired signal. -/
theorem step_units (nd : Bool) (s s' : State) (e : Event) (hwf : WF s)
    (h : step nd s e = some s') :
    ∃ us : List Work, s'.posted = s.posted ++ us ∧ ∀ u ∈ us,
      (e = Event.notify u.ec) ∨ (e = Event.destroy ∧ u.ec = operation_aborted) ∨
      (∃ c, e = Event.cancel c ∧ u.ec = operation_aborted ∧
        ∀ hd ∈ u.h, (cancel_t.signal c, hd.coro) ∈ s.slots) := by
  cases e with
  | wait c =>
    simp [step] at h; subst h
    exact ⟨[], by simp [wait_posted], by simp⟩
  | notify ec =>
    simp [step] at h; subst h
    obtain ⟨us, _, h2, _, h4⟩ := notify_units s ec
    exact ⟨us, h4, fun u hu => Or.inl (by rw [h2 u hu])⟩
  | cancel c =>
    obtain ⟨_, _, _, _, us, k3, _, k5⟩ := fire_spec nd s s' c hwf h
    exact ⟨us, k3, fun u hu => Or.inr (Or.inr ⟨c, rfl, (k5 u hu).1, (k5 u hu).2⟩)⟩
  | run =>
    rcases run_some s s' h with ⟨_, rfl⟩ | ⟨u, q, w, _, _, rfl⟩
    · exact ⟨[], by simp, by simp⟩
    · exact ⟨[], by simp, by simp⟩
  | destroy =>
    simp [step] at h; subst h
    obtain ⟨us, _, h2, _, h4⟩ := notify_units s operation_aborted
    exact ⟨us, h4, fun u hu => Or.inr (Or.inl ⟨rfl, h2 u hu⟩)⟩

/-- The units of work a sequence of events submits on a well-formed state: each
carries the argument of a `notify` of the sequence, or `operation_aborted` when
the sequence holds a destruction or a firing. -/
theorem exec_units (nd : Bool) (es : List Event) :
    ∀ (s s' : State), WF s → exec nd s es = some s' →
      ∃ us : List Work, s'.posted = s.posted ++ us ∧ ∀ u ∈ us,
        Event.notify u.ec ∈ es ∨
        (u.ec = operation_aborted ∧ (Event.destroy ∈ es ∨ ∃ c, Event.cancel c ∈ es)) := by
  induction es with
  | nil => intro s s' _ h; simp [exec] at h; subst h; exact ⟨[], by simp, by simp⟩
  | cons e es ih =>
    intro s s' hwf h
    unfold exec at h
    rw [List.foldlM_cons] at h
    cases hc : step nd s e with
    | none => simp [hc] at h
    | some s1 =>
      simp [hc] at h
      obtain ⟨us1, p1, q1⟩ := step_units nd s s1 e hwf hc
      obtain ⟨us2, p2, q2⟩ := ih s1 s' (WF_step nd s s1 e hwf hc) h
      refine ⟨us1 ++ us2, by rw [p2, p1, List.append_assoc], ?_⟩
      intro u hu
      rcases List.mem_append.mp hu with hu1 | hu1
      · rcases q1 u hu1 with k | ⟨k, k'⟩ | ⟨c, k, k', _⟩
        · exact Or.inl (k ▸ List.mem_cons_self _ _)
        · exact Or.inr ⟨k', Or.inl (k ▸ List.mem_cons_self _ _)⟩
        · exact Or.inr ⟨k', Or.inr ⟨c, k ▸ List.mem_cons_self _ _⟩⟩
      · rcases q2 u hu1 with k | ⟨k, k' | ⟨c, k'⟩⟩
        · exact Or.inl (List.mem_cons_of_mem _ k)
        · exact Or.inr ⟨k, Or.inl (List.mem_cons_of_mem _ k')⟩
        · exact Or.inr ⟨k, Or.inr ⟨c, List.mem_cons_of_mem _ k'⟩⟩

/-- The units of work for a wait `W` whose slot is connected to `c0` only, along a
sequence of events: each carries the argument of a `notify` of the sequence, or
`operation_aborted` from a destruction or from the firing of `c0`. -/
theorem exec_units_own (nd : Bool) (W : Nat) (c0 : cancel_t) (es : List Event) :
    ∀ (s s' : State), WF s → own_slot W c0 s → exec nd s es = some s' →
      ∃ us : List Work, s'.posted = s.posted ++ us ∧ ∀ u ∈ units_for us W,
        Event.notify u.ec ∈ es ∨
        (u.ec = operation_aborted ∧
          (Event.destroy ∈ es ∨ ∃ c, Event.cancel c ∈ es ∧ c0 = cancel_t.signal c)) := by
  induction es with
  | nil => intro s s' _ _ h; simp [exec] at h; subst h; exact ⟨[], by simp, by simp [units_for]⟩
  | cons e es ih =>
    intro s s' hwf ho h
    unfold exec at h
    rw [List.foldlM_cons] at h
    cases hc : step nd s e with
    | none => simp [hc] at h
    | some s1 =>
      simp [hc] at h
      obtain ⟨us1, p1, q1⟩ := step_units nd s s1 e hwf hc
      obtain ⟨us2, p2, q2⟩ := ih s1 s' (WF_step nd s s1 e hwf hc)
        (own_slot_step nd W c0 s s1 e hwf ho hc) h
      refine ⟨us1 ++ us2, by rw [p2, p1, List.append_assoc], ?_⟩
      intro u hu
      have hu' : u ∈ units_for us1 W ++ units_for us2 W := by
        simpa [units_for, List.filter_append] using hu
      rcases List.mem_append.mp hu' with hu1 | hu1
      · have hm := List.mem_filter.mp hu1
        rcases q1 u hm.1 with k | ⟨k, k'⟩ | ⟨c, k, k', k''⟩
        · exact Or.inl (k ▸ List.mem_cons_self _ _)
        · exact Or.inr ⟨k', Or.inl (k ▸ List.mem_cons_self _ _)⟩
        · refine Or.inr ⟨k', Or.inr ⟨c, k ▸ List.mem_cons_self _ _, ?_⟩⟩
          have h2 : u.h.map HandlerType.coro = some W := by simpa using hm.2
          cases hh : u.h with
          | none => simp [hh] at h2
          | some hd =>
            simp [hh] at h2
            have := k'' hd hh
            rw [h2] at this
            exact (ho.2 _ this).symm
      · rcases q2 u hu1 with k | ⟨k, k' | ⟨c, k', k''⟩⟩
        · exact Or.inl (List.mem_cons_of_mem _ k)
        · exact Or.inr ⟨k, Or.inl (List.mem_cons_of_mem _ k')⟩
        · exact Or.inr ⟨k, Or.inr ⟨c, List.mem_cons_of_mem _ k', k''⟩⟩

/-- C11, as stated, fails: `notify` forwards whatever status it is given.  After
wait(yield), notify(ec) with ec of value 5, and one executor step, the wait has
resumed with that status, which is neither success nor `operation_aborted`. -/
theorem notify_delivers_any_status :
    (exec false State.init
        [Event.wait cancel_t.dummy, Event.notify ⟨5⟩, Event.run]).map State.resumed
      = some [(0, ⟨5⟩)] ∧
    ¬ (∀ (nd : Bool) (es : List Event) (s : State), exec nd State.init es = some s →
        ∀ r ∈ s.resumed, r.2 = error_code.default ∨ r.2 = operation_aborted) := by
  refine ⟨by decide, ?_⟩
  intro h
  have h1 := h false [Event.wait cancel_t.dummy, Event.notify ⟨5⟩, Event.run]
    { on_notify := [], entries := [⟨some ⟨0, true⟩⟩], queue := [], posted := [wake ⟨5⟩ 0],
      resumed := [(0, ⟨5⟩)], slots := [(cancel_t.dummy, 0)] } (by decide)
    (0, ⟨5⟩) (by decide)
  revert h1
  decide

/-- C11, amended: along every sequence of events from a fresh ConditionVariable,
every status delivered to a resumed wait is the argument of a `notify` of the
sequence, or is `operation_aborted` and the sequence holds a destruction or a
firing; so when every `notify` is given success, only success and
`operation_aborted` are delivered. -/
theorem delivered_status_is_notified_or_aborted (nd : Bool) (es : List Event) (s : State)
    (h : exec nd State.init es = some s) :
    (∀ r ∈ s.resumed, Event.notify r.2 ∈ es ∨
      (r.2 = operation_aborted ∧ (Event.destroy ∈ es ∨ ∃ c, Event.cancel c ∈ es))) ∧
    ((∀ ec, Event.notify ec ∈ es → ec = error_code.default) →
      ∀ r ∈ s.resumed, r.2 = error_code.default ∨ r.2 = operation_aborted) := by
  obtain ⟨_, hh⟩ := Hist_exec nd es State.init s WF_init Hist_init h
  obtain ⟨us, p, q⟩ := exec_units nd es State.init s WF_init h
  have key : ∀ r ∈ s.resumed, Event.notify r.2 ∈ es ∨
      (r.2 = operation_aborted ∧ (Event.destroy ∈ es ∨ ∃ c, Event.cancel c ∈ es)) := by
    intro r hr
    have hp := hh.2.2 r hr
    rw [p] at hp
    have hp' : wake r.2 r.1 ∈ us := by simpa [State.init] using hp
    exact q _ hp'
  refine ⟨key, ?_⟩
  intro hall r hr
  rcases key r hr with k | ⟨k, _⟩
  · exact Or.inl (hall _ k)
  · exact Or.inr k

theorem delivered_status_is_notified_or_aborted_witness :
    exec false State.init [Event.wait cancel_t.dummy, Event.destroy, Event.run]
      = some aborted_plain_wait ∧
    ∀ r ∈ aborted_plain_wait.resumed,
      Event.notify r.2 ∈ [Event.wait cancel_t.dummy, Event.destroy, Event.run] ∨
      (r.2 = operation_aborted ∧
        (Event.destroy ∈ [Event.wait cancel_t.dummy, Event.destroy, Event.run] ∨
          ∃ c, Event.cancel c ∈ [Event.wait cancel_t.dummy, Event.destroy, Event.run])) :=
  ⟨by decide,
    (delivered_status_is_notified_or_aborted false
      [Event.wait cancel_t.dummy, Event.destroy, Event.run] aborted_plain_wait (by decide)).1⟩

/-- C12, as stated, fails: a plain wait woken by the destructor resumes with
`operation_aborted`, a failure status, not with success. -/
theorem plain_wait_aborted_by_destructor :
    (exec false (wait_plain State.init) [Event.destroy, Event.run]).map State.resumed
      = some [(0, operation_aborted)] ∧
    operation_aborted.failed = true ∧
    ¬ (∀ (nd : Bool) (es : List Event) (st : State),
        exec nd (wait_plain State.init) es = some st →
        ∀ ec, (0, ec) ∈ st.resumed → ec = error_code.default) := by
  refine ⟨by decide, by decide, ?_⟩
  intro h
  have h1 := h false [Event.destroy, Event.run] aborted_plain_wait (by decide)
    operation_aborted (by decide)
  revert h1
  decide

/-- C12, amended: a plain wait registered on a well-formed state with consistent
histories resumes, along every later sequence of events, with the argument of a
`notify` of the sequence (success for `notify()`), or with `operation_aborted`
when the sequence holds a destruction; no firing of a signal wakes it.  A
`notify()` submits its wake with success, the destructor with
`operation_aborted`. -/
theorem plain_wait_resumes_as_notified_or_aborted (nd : Bool) (s st : State)
    (es : List Event) (hwf : WF s) (hh : Hist s)
    (hex : exec nd (wait_plain s) es = some st) :
    (∀ ec, (s.entries.length, ec) ∈ st.resumed →
      Event.notify ec ∈ es ∨ (ec = operation_aborted ∧ Event.destroy ∈ es)) ∧
    (∀ u ∈ units_for (submitted_by s st) s.entries.length,
      Event.notify u.ec ∈ es ∨ (u.ec = operation_aborted ∧ Event.destroy ∈ es)) ∧
    units_for (submitted_by (wait_plain s) (notify_default (wait_plain s))) s.entries.length
      = [wake error_code.default s.entries.length] ∧
    units_for (submitted_by (wait_plain s) (destroy (wait_plain s))) s.entries.length
      = [wake operation_aborted s.entries.length] := by
  have hwf1 : WF (wait_plain s) := WF_wait s _ hwf
  have hh1 : Hist (wait_plain s) := Hist_wait s _ hh
  have ho : own_slot s.entries.length cancel_t.dummy (wait_plain s) :=
    own_slot_wait s cancel_t.dummy hwf
  obtain ⟨_, hhst⟩ := Hist_exec nd es _ st hwf1 hh1 hex
  obtain ⟨us, p, q⟩ := exec_units_own nd _ cancel_t.dummy es _ st hwf1 ho hex
  have p' : st.posted = s.posted ++ us := p
  have q' : ∀ u ∈ units_for us s.entries.length,
      Event.notify u.ec ∈ es ∨ (u.ec = operation_aborted ∧ Event.destroy ∈ es) := by
    intro u hu
    rcases q u hu with k | ⟨k, k' | ⟨c, _, k'⟩⟩
    · exact Or.inl k
    · exact Or.inr ⟨k, k'⟩
    · cases k'
  have hmem : s.entries.length ∈ (wait_plain s).on_notify := by
    show s.entries.length ∈ s.on_notify ++ [s.entries.length]
    simp
  refine ⟨?_, ?_, ?_, ?_⟩
  · intro ec hr
    have hp := hhst.2.2 _ hr
    rw [p'] at hp
    rcases List.mem_append.mp hp with hp1 | hp1
    · have := (hh.1 _ hp1 ⟨s.entries.length, false⟩ rfl).1
      exact absurd this (Nat.lt_irrefl _)
    · have hp2 : wake ec s.entries.length ∈ us := hp1
      have hu : wake ec s.entries.length ∈ units_for us s.entries.length :=
        List.mem_filter.mpr ⟨hp2, by simp [wake]⟩
      exact q' _ hu
  · rw [submitted_by_append s st us p']
    exact q'
  · show units_for (submitted_by (wait_plain s) (notify (wait_plain s) error_code.default)) _ = _
    rw [submitted_by_notify_wf _ _ hwf1]
    exact units_for_wakes_one _ _ _ hwf1.1 hmem
  · show units_for (submitted_by (wait_plain s) (notify (wait_plain s) operation_aborted)) _ = _
    rw [submitted_by_notify_wf _ _ hwf1]
    exact units_for_wakes_one _ _ _ hwf1.1 hmem

theorem plain_wait_resumes_as_notified_or_aborted_witness :
    WF State.init ∧ Hist State.init ∧
    exec false (wait_plain State.init) [Event.destroy, Event.run] = some aborted_plain_wait ∧
    ∀ ec, (State.init.entries.length, ec) ∈ aborted_plain_wait.resumed →
      Event.notify ec ∈ [Event.destroy, Event.run] ∨
      (ec = operation_aborted ∧ Event.destroy ∈ [Event.destroy, Event.run]) :=
  ⟨by decide, by decide, by decide,
    (plain_wait_resumes_as_notified_or_aborted false State.init aborted_plain_wait
      [Event.destroy, Event.run] (by decide) (by decide) (by decide)).1⟩

/-- C15: in every state reached from a fresh ConditionVariable by a sequence of
completed events, no entry is in the waiter list twice, no linked entry has a
unit of work submitted for its wait or its handle invoked, and the handle that
the next executor step would invoke belongs to an entry that is already
unlinked. -/
theorem linked_entries_are_unwoken (nd : Bool) (es : List Event) (s : State)
    (h : exec nd State.init es = some s) :
    s.on_notify.Nodup ∧
    (∀ w ∈ s.on_notify, units_for s.posted w = [] ∧ ∀ ec, (w, ec) ∉ s.resumed) ∧
    (∀ u ∈ s.queue, ∀ hd ∈ u.h, hd.coro ∉ s.on_notify) ∧
    (∀ (u : Work) (q : List Work) (w : Nat), s.queue = u :: q → u.h = some ⟨w, false⟩ →
      w ∉ s.on_notify) := by
  obtain ⟨hwf, hh⟩ := Hist_exec nd es State.init s WF_init Hist_init h
  refine ⟨hwf.1, fun w hw => linked_not_woken s hh w hw, ?_, ?_⟩
  · intro u hu hd hm
    exact (hh.1 u (hh.2.1 u hu) hd hm).2
  · intro u q w hq hu
    have hmem : u ∈ s.queue := by rw [hq]; exact List.mem_cons_self _ _
    exact (hh.1 u (hh.2.1 u hmem) ⟨w, false⟩ hu).2

theorem linked_entries_are_unwoken_witness :
    exec true State.init
        [Event.wait (cancel_t.signal 0), Event.notify error_code.default, Event.wait cancel_t.dummy]
      = some (wait_plain notified_waiter) ∧
    (wait_plain notified_waiter).on_notify = [1] ∧
    (∀ w ∈ (wait_plain notified_waiter).on_notify,
      units_for (wait_plain notified_waiter).posted w = [] ∧
      ∀ ec, (w, ec) ∉ (wait_plain notified_waiter).resumed) :=
  ⟨by decide, by decide,
    (linked_entries_are_unwoken true
      [Event.wait (cancel_t.signal 0), Event.notify error_code.default, Event.wait cancel_t.dummy]
      (wait_plain notified_waiter) (by decide)).2.1⟩

/-! ## Lemmas on the independence from the cancel slots -/

theorem notify_body_set_slots (s : State) (sl : List (cancel_t × Nat)) (ec : error_code) :
    notify_body (set_slots s sl) ec = set_slots (notify_body s ec) sl := by
  cases h : s.on_notify with
  | nil => simp [notify_body, set_slots, h]
  | cons e rest => simp [notify_body, set_slots, h, move_handler, post, handler_of]

theorem notify_loop_set_slots (ec : error_code) (sl : List (cancel_t × Nat)) :
    ∀ (fuel : Nat) (s : State),
      notify_loop fuel (set_slots s sl) ec = set_slots (notify_loop fuel s ec) sl := by
  intro fuel
  induction fuel with
  | zero => intro s; rfl
  | succ n ih =>
    intro s
    cases h : s.on_notify with
    | nil =>
      rw [notify_loop_nil _ _ _ h, notify_loop_nil _ (set_slots s sl) _ h]
    | cons e rest =>
      rw [notify_loop_cons n s ec e rest h, notify_loop_cons n (set_slots s sl) ec e rest h,
        notify_body_set_slots, ih]

theorem notify_set_slots (s : State) (sl : List (cancel_t × Nat)) (ec : error_code) :
    notify (set_slots s sl) ec = set_slots (notify s ec) sl :=
  notify_loop_set_slots ec sl _ s

theorem cancel_callback_set_slots (nd : Bool) (s : State) (sl : List (cancel_t × Nat))
    (w : Nat) :
    cancel_callback nd (set_slots s sl) w
      = (cancel_callback nd s w).map (fun t => set_slots t sl) := by
  by_cases hl : w ∈ s.on_notify <;> cases nd <;>
    simp [cancel_callback, is_linked, set_slots, hl, unlink, move_handler, post, handler_of]

theorem callbacks_set_slots (nd : Bool) (sl : List (cancel_t × Nat)) :
    ∀ (l : List (cancel_t × Nat)) (s : State),
      l.foldlM (fun st x => cancel_callback nd st x.2) (set_slots s sl)
        = (l.foldlM (fun st x => cancel_callback nd st x.2) s).map (fun t => set_slots t sl) := by
  intro l
  induction l with
  | nil => intro s; simp
  | cons a l ih =>
    intro s
    rw [List.foldlM_cons, List.foldlM_cons, cancel_callback_set_slots]
    cases hc : cancel_callback nd s a.2 with
    | none => simp
    | some s1 => simp [ih]

theorem run_set_slots (s : State) (sl : List (cancel_t × Nat)) :
    run (set_slots s sl) = (run s).map (fun t => set_slots t sl) := by
  unfold run
  cases hq : s.queue with
  | nil => simp [set_slots, hq]
  | cons u q =>
    rcases u with ⟨uh, uec⟩
    cases uh with
    | none => simp [set_slots, hq]
    | some hd =>
      rcases hd with ⟨w, m⟩
      cases m <;> simp [set_slots, hq]

theorem run_slots (s s' : State) (h : run s = some s') : s'.slots = s.slots := by
  rcases run_some s s' h with ⟨_, rfl⟩ | ⟨u, q, w, _, _, rfl⟩ <;> rfl

theorem callbacks_slots (nd : Bool) :
    ∀ (l : List (cancel_t × Nat)) (s s' : State),
      l.foldlM (fun st x => cancel_callback nd st x.2) s = some s' → s'.slots = s.slots := by
  intro l
  induction l with
  | nil => intro s s' h; simp at h; subst h; rfl
  | cons a l ih =>
    intro s s' h
    rw [List.foldlM_cons] at h
    cases hc : cancel_callback nd s a.2 with
    | none => simp [hc] at h
    | some s1 =>
      simp [hc] at h
      rw [ih s1 s' h, cancel_callback_some nd s s1 a.2 hc]

theorem same_but_signal_eq (c : Nat) (s t : State) (h : same_but_signal c s t) :
    t = set_slots s t.slots := by
  obtain ⟨ho, _⟩ := h
  rcases s with ⟨a1, a2, a3, a4, a5, a6⟩
  rcases t with ⟨b1, b2, b3, b4, b5, b6⟩
  simp [observable] at ho
  obtain ⟨h1, h2, h3, h4, h5⟩ := ho
  subst h1 h2 h3 h4 h5
  rfl

theorem observable_set_slots (s : State) (sl : List (cancel_t × Nat)) :
    observable (set_slots s sl) = observable s := rfl

theorem filter_signal_comm (l : List (cancel_t × Nat)) (a b : Nat) :
    (l.filter (fun sl => sl.1 ≠ cancel_t.signal a)).filter (fun sl => sl.1 = cancel_t.signal b)
      = (l.filter (fun sl => sl.1 = cancel_t.signal b)).filter
          (fun sl => sl.1 ≠ cancel_t.signal a) := by
  rw [List.filter_filter, List.filter_filter]
  apply List.filter_congr
  intro x _
  exact Bool.and_comm _ _

/-- One event other than the firing of `c` takes two states that show the same and
agree on the slots of the other signals to two such states, or fails on both. -/
theorem same_but_signal_step (nd : Bool) (c : Nat) (s t : State) (e : Event)
    (hne : e ≠ Event.cancel c) (hs : same_but_signal c s t) :
    (step nd s e = none ∧ step nd t e = none) ∨
    ∃ s' t', step nd s e = some s' ∧ step nd t e = some t' ∧ same_but_signal c s' t' := by
  have ht := same_but_signal_eq c s t hs
  obtain ⟨_, hsl⟩ := hs
  cases e with
  | wait c2 =>
    refine Or.inr ⟨_, _, rfl, rfl, ?_, ?_⟩
    · rw [ht]; rfl
    · intro c' hc'
      show (s.slots ++ [(c2, s.entries.length)]).filter _
        = (t.slots ++ [(c2, t.entries.length)]).filter _
      have hlen : t.entries.length = s.entries.length := by rw [ht]; rfl
      rw [List.filter_append, List.filter_append, hsl c' hc', hlen]
  | notify ec =>
    refine Or.inr ⟨_, _, rfl, rfl, ?_, ?_⟩
    · rw [ht, notify_set_slots]; rfl
    · intro c' hc'
      rw [notify_slots, notify_slots]
      exact hsl c' hc'
  | cancel c' =>
    have hc' : c' ≠ c := fun h => hne (h ▸ rfl)
    have h1 : step nd s (Event.cancel c')
        = ((s.slots.filter (fun sl => sl.1 = cancel_t.signal c')).foldlM
            (fun st x => cancel_callback nd st x.2) s).map
            (fun r => set_slots r (s.slots.filter (fun sl => sl.1 ≠ cancel_t.signal c'))) := by
      rw [← callbacks_set_slots]; rfl
    have h2 : step nd t (Event.cancel c')
        = ((s.slots.filter (fun sl => sl.1 = cancel_t.signal c')).foldlM
            (fun st x => cancel_callback nd st x.2) s).map
            (fun r => set_slots r (t.slots.filter (fun sl => sl.1 ≠ cancel_t.signal c'))) := by
      rw [← callbacks_set_slots, hsl c' hc']
      conv_lhs => rw [ht]
      rfl
    rw [h1, h2]
    cases hF : (s.slots.filter (fun sl => sl.1 = cancel_t.signal c')).foldlM
        (fun st x => cancel_callback nd st x.2) s with
    | none => exact Or.inl ⟨rfl, rfl⟩
    | some r =>
      refine Or.inr ⟨_, _, rfl, rfl, rfl, ?_⟩
      intro c'' hc''
      show (s.slots.filter _).filter _ = (t.slots.filter _).filter _
      rw [filter_signal_comm, filter_signal_comm, hsl c'' hc'']
  | run =>
    have h2 : step nd t Event.run = (run s).map (fun r => set_slots r t.slots) := by
      conv_lhs => rw [ht]
      exact run_set_slots s t.slots
    cases hr : run s with
    | none =>
      left
      exact ⟨hr, by rw [h2, hr]; rfl⟩
    | some r =>
      refine Or.inr ⟨r, set_slots r t.slots, hr, by rw [h2, hr]; rfl, rfl, ?_⟩
      intro c' hc'
      show r.slots.filter _ = t.slots.filter _
      rw [run_slots s r hr]
      exact hsl c' hc'
  | destroy =>
    refine Or.inr ⟨_, _, rfl, rfl, ?_, ?_⟩
    · unfold destroy
      rw [ht, notify_set_slots]; rfl
    · intro c' hc'
      unfold destroy
      rw [notify_slots, notify_slots]
      exact hsl c' hc'

/-- A sequence of events without a firing of `c` takes two states that show the
same and agree on the slots of the other signals to two such states, or fails on
both. -/
theorem same_but_signal_exec (nd : Bool) (c : Nat) (es : List Event) :
    ∀ (s t : State), same_but_signal c s t → (∀ e ∈ es, e ≠ Event.cancel c) →
      (exec nd s es = none ∧ exec nd t es = none) ∨
      ∃ s' t', exec nd s es = some s' ∧ exec nd t es = some t' ∧ same_but_signal c s' t' := by
  induction es with
  | nil => intro s t hs _; exact Or.inr ⟨s, t, rfl, rfl, hs⟩
  | cons e es ih =>
    intro s t hs hes
    have he : e ≠ Event.cancel c := hes e (List.mem_cons_self _ _)
    have hes' : ∀ x ∈ es, x ≠ Event.cancel c := fun x hx => hes x (List.mem_cons_of_mem _ hx)
    unfold exec
    rw [List.foldlM_cons, List.foldlM_cons]
    rcases same_but_signal_step nd c s t e he hs with ⟨k1, k2⟩ | ⟨s1, t1, k1, k2, k3⟩
    · left; simp [k1, k2]
    · rw [k1, k2]
      exact ih s1 t1 k3 hes'

theorem same_but_signal_wait (c : Nat) (s : State) :
    same_but_signal c (wait_plain s) (wait s (cancel_t.signal c)) := by
  refine ⟨rfl, ?_⟩
  intro c' hc'
  show (s.slots ++ [(cancel_t.dummy, s.entries.length)]).filter _
    = (s.slots ++ [(cancel_t.signal c, s.entries.length)]).filter _
  rw [List.filter_append, List.filter_append]
  have h1 : [(cancel_t.dummy, s.entries.length)].filter
      (fun sl => decide (sl.1 = cancel_t.signal c')) = [] := by simp
  have h2 : [(cancel_t.signal c, s.entries.length)].filter
      (fun sl => decide (sl.1 = cancel_t.signal c')) = [] := by
    simp
    exact fun h => hc' h.symm
  rw [h1, h2]

/-- C13: for every state, `wait(yield)` and `wait(c, yield)` yield states that show
the same waiter list, entries, executor queue and histories; and after every
later sequence of events in which `c` is never fired (notify, destruction,
executor steps, other waits and other signals), the two runs both fail or both
succeed with the same waiter list, entries, queue, submitted units and resumed
waits with their statuses. -/
theorem plain_wait_is_wait_with_silent_signal (nd : Bool) (s : State) (c : Nat)
    (es : List Event) (hes : ∀ e ∈ es, e ≠ Event.cancel c) :
    observable (wait_plain s) = observable (wait s (cancel_t.signal c)) ∧
    (wait_plain s).on_notify = (wait s (cancel_t.signal c)).on_notify ∧
    (wait_plain s).queue = (wait s (cancel_t.signal c)).queue ∧
    (exec nd (wait_plain s) es).map observable
      = (exec nd (wait s (cancel_t.signal c)) es).map observable ∧
    (exec nd (wait_plain s) es).map State.resumed
      = (exec nd (wait s (cancel_t.signal c)) es).map State.resumed := by
  refine ⟨rfl, rfl, rfl, ?_, ?_⟩
  · rcases same_but_signal_exec nd c es _ _ (same_but_signal_wait c s) hes with
      ⟨k1, k2⟩ | ⟨s1, t1, k1, k2, k3⟩
    · rw [k1, k2]
    · rw [k1, k2]; simp [k3.1]
  · rcases same_but_signal_exec nd c es _ _ (same_but_signal_wait c s) hes with
      ⟨k1, k2⟩ | ⟨s1, t1, k1, k2, k3⟩
    · rw [k1, k2]
    · rw [k1, k2]
      have := k3.1
      simp [observable] at this
      simp [this.2.2.2.2]

theorem plain_wait_is_wait_with_silent_signal_witness :
    (∀ e ∈ [Event.cancel 1, Event.notify error_code.default, Event.run, Event.run],
      e ≠ Event.cancel 7) ∧
    (exec true (wait_plain three_waiters)
        [Event.cancel 1, Event.notify error_code.default, Event.run, Event.run]).map
      State.resumed
      = (exec true (wait three_waiters (cancel_t.signal 7))
        [Event.cancel 1, Event.notify error_code.default, Event.run, Event.run]).map
      State.resumed :=
  ⟨by decide,
    (plain_wait_is_wait_with_silent_signal true three_waiters 7
      [Event.cancel 1, Event.notify error_code.default, Event.run, Event.run]
      (by decide)).2.2.2.2⟩

/-! ## Lemmas on firing a signal -/

theorem slot_signal_unique {l : List (cancel_t × Nat)} (hnd : (l.map Prod.snd).Nodup)
    {a b : cancel_t} {w : Nat} (ha : (a, w) ∈ l) (hb : (b, w) ∈ l) : a = b := by
  have := List.inj_on_of_nodup_map hnd ha hb rfl
  exact (Prod.mk.inj this).1

/-- A run of cancel callbacks only removes entries from the waiter list, and
removes none but those captured by the slots it runs. -/
theorem callbacks_on_notify (nd : Bool) :
    ∀ (l : List (cancel_t × Nat)) (s s' : State),
      l.foldlM (fun st x => cancel_callback nd st x.2) s = some s' →
      (∀ w, w ∈ s'.on_notify → w ∈ s.on_notify) ∧
      (∀ w, w ∈ s.on_notify → w ∉ l.map Prod.snd → w ∈ s'.on_notify) := by
  intro l
  induction l with
  | nil => intro s s' h; simp at h; subst h; exact ⟨fun _ h => h, fun _ h _ => h⟩
  | cons a l ih =>
    intro s s' h
    rw [List.foldlM_cons] at h
    cases hc : cancel_callback nd s a.2 with
    | none => simp [hc] at h
    | some s1 =>
      simp [hc] at h
      obtain ⟨k1, k2⟩ := ih s1 s' h
      have hs1 : s1.on_notify = s.on_notify.erase a.2 := by
        rw [cancel_callback_some nd s s1 a.2 hc]
      refine ⟨?_, ?_⟩
      · intro w hw
        have := k1 w hw
        rw [hs1] at this
        exact List.mem_of_mem_erase this
      · intro w hw hnm
        have hne : w ≠ a.2 := fun h => hnm (by rw [h]; simp)
        have hnl : w ∉ l.map Prod.snd := fun h => hnm (by simp at h ⊢; exact Or.inr h)
        apply k2 w _ hnl
        rw [hs1]
        exact (List.mem_erase_of_ne hne).mpr hw

/-- A run of cancel callbacks over slots capturing different entries, when it
returns: a linked entry `W` captured by one of the slots is unlinked and gets
exactly one unit of work, its wake with `operation_aborted`; for an entry captured
by none of them no unit of work is submitted. -/
theorem callbacks_for (nd : Bool) (W : Nat) :
    ∀ (l : List (cancel_t × Nat)) (s s' : State), WF s → (l.map Prod.snd).Nodup →
      l.foldlM (fun st x => cancel_callback nd st x.2) s = some s' →
      (W ∉ l.map Prod.snd → units_for (submitted_by s s') W = []) ∧
      (W ∈ l.map Prod.snd → W ∈ s.on_notify →
        units_for (submitted_by s s') W = [wake operation_aborted W] ∧ W ∉ s'.on_notify) := by
  intro l
  induction l with
  | nil =>
    intro s s' _ _ h
    simp at h; subst h
    exact ⟨fun _ => by simp [submitted_by, units_for], fun h => by simp at h⟩
  | cons a l ih =>
    intro s s' hwf hnd h
    rw [List.foldlM_cons] at h
    cases hc : cancel_callback nd s a.2 with
    | none => simp [hc] at h
    | some s1 =>
      simp [hc] at h
      have hwf1 := WF_cancel_callback nd s s1 a.2 hwf hc
      have hnd' : a.2 ∉ l.map Prod.snd ∧ (l.map Prod.snd).Nodup := by
        simpa using hnd
      obtain ⟨i1, i2⟩ := ih s1 s' hwf1 hnd'.2 h
      obtain ⟨_, _, _, _, us, p, _, _⟩ := callbacks_spec nd l s1 s' hwf1 h
      have hs1 := cancel_callback_some nd s s1 a.2 hc
      have hp1 : s1.posted = s.posted ++ [⟨handler_of s a.2, operation_aborted⟩] := by
        rw [hs1]
      have hsub1 : submitted_by s1 s' = us := submitted_by_append s1 s' us p
      have hsub : submitted_by s s' = ⟨handler_of s a.2, operation_aborted⟩ :: us := by
        apply submitted_by_append
        rw [p, hp1]; simp
      have hsplit : units_for (submitted_by s s') W
          = units_for [⟨handler_of s a.2, operation_aborted⟩] W ++ units_for us W := by
        rw [hsub]; simp [units_for, List.filter_cons]
        split <;> simp
      have hother : a.2 ≠ W → units_for [(⟨handler_of s a.2, operation_aborted⟩ : Work)] W = [] := by
        intro hne
        cases hh : handler_of s a.2 with
        | none => simp [units_for]
        | some hd =>
          have := hwf.coro hh
          simp [units_for, this, hne]
      refine ⟨?_, ?_⟩
      · intro hW
        have hne : a.2 ≠ W := fun h => hW (by rw [← h]; simp)
        have hnl : W ∉ l.map Prod.snd := fun h => hW (by simp at h ⊢; exact Or.inr h)
        rw [hsplit, hother hne, ← hsub1, i1 hnl]; rfl
      · intro hW hlink
        by_cases hWa : a.2 = W
        · have hnl : W ∉ l.map Prod.snd := by rw [← hWa]; exact hnd'.1
          have hh : handler_of s a.2 = some ⟨W, false⟩ := by
            rw [hWa]; exact hwf.2.1 W hlink
          have hun : W ∉ s1.on_notify := by
            rw [hs1, hWa]
            exact fun hx => ((hwf.1.mem_erase_iff).mp hx).1 rfl
          refine ⟨?_, fun hx => hun ((callbacks_on_notify nd l s1 s' h).1 W hx)⟩
          rw [hsplit, ← hsub1, i1 hnl, hh]
          simp [units_for, wake]
        · have hin : W ∈ l.map Prod.snd := by
            rw [List.map_cons, List.mem_cons] at hW
            rcases hW with hx | hx
            · exact absurd hx.symm hWa
            · exact hx
          have hl1 : W ∈ s1.on_notify := by
            rw [hs1]
            exact (List.mem_erase_of_ne (fun h => hWa h.symm)).mpr hlink
          obtain ⟨j1, j2⟩ := i2 hin hl1
          refine ⟨?_, j2⟩
          rw [hsplit, hother hWa, ← hsub1, j1]; rfl

/-- Without assertions a run of cancel callbacks always returns. -/
theorem callbacks_total_release :
    ∀ (l : List (cancel_t × Nat)) (s : State),
      ∃ s', l.foldlM (fun st x => cancel_callback true st x.2) s = some s' := by
  intro l
  induction l with
  | nil => intro s; exact ⟨s, rfl⟩
  | cons a l ih =>
    intro s
    rw [List.foldlM_cons]
    have : ∃ s1, cancel_callback true s a.2 = some s1 := by
      simp [cancel_callback]
    obtain ⟨s1, h1⟩ := this
    rw [h1]
    exact ih s1

/-- In either build a run of cancel callbacks over slots that capture different,
linked entries returns. -/
theorem callbacks_total_linked (nd : Bool) :
    ∀ (l : List (cancel_t × Nat)) (s : State), WF s → (l.map Prod.snd).Nodup →
      (∀ sl ∈ l, sl.2 ∈ s.on_notify) →
      ∃ s', l.foldlM (fun st x => cancel_callback nd st x.2) s = some s' := by
  intro l
  induction l with
  | nil => intro s _ _ _; exact ⟨s, rfl⟩
  | cons a l ih =>
    intro s hwf hnd hl
    rw [List.foldlM_cons]
    have ha : a.2 ∈ s.on_notify := hl a (List.mem_cons_self _ _)
    have hc := cancel_callback_linked nd s a.2 ha
    rw [hc]
    have hnd' : a.2 ∉ l.map Prod.snd ∧ (l.map Prod.snd).Nodup := by
      simpa using hnd
    apply ih _ (WF_cancel_callback nd s _ a.2 hwf hc) hnd'.2
    intro sl hsl
    have hne : sl.2 ≠ a.2 := by
      intro h
      exact hnd'.1 (by rw [← h]; exact List.mem_map_of_mem _ hsl)
    exact (List.mem_erase_of_ne hne).mpr (hl sl (List.mem_cons_of_mem _ hsl))

theorem fire_eq_callbacks (nd : Bool) (s : State) (c : Nat) :
    fire nd s c
      = (s.slots.filter (fun sl => sl.1 = cancel_t.signal c)).foldlM
          (fun st x => cancel_callback nd st x.2)
          (set_slots s (s.slots.filter (fun sl => sl.1 ≠ cancel_t.signal c))) := rfl

theorem WF_set_slots_filter (s : State) (p : cancel_t × Nat → Bool) (hwf : WF s) :
    WF (set_slots s (s.slots.filter p)) :=
  WF_sub s _ _ _ _ _ hwf hwf.1 (fun _ hw => hw) (fun _ hx => (List.mem_filter.mp hx).1)

/-- Firing signal `c` on a well-formed state in which a linked entry `W` has its
slot connected to `c`: in a build without assertions, or when every slot of `c`
captures a linked entry, the firing returns, `W` is unlinked, and exactly one
unit of work is submitted for `W`, its wake with `operation_aborted`. -/
theorem fire_linked_entry (nd : Bool) (s : State) (c W : Nat) (hwf : WF s)
    (hd : slots_distinct s) (hslot : (cancel_t.signal c, W) ∈ s.slots)
    (hW : W ∈ s.on_notify) (hst : nd = true ∨ slots_linked c s) :
    ∃ s', fire nd s c = some s' ∧ WF s' ∧ W ∉ s'.on_notify ∧
      units_for (submitted_by s s') W = [wake operation_aborted W] ∧
      s'.resumed = s.resumed := by
  have hwf0 := WF_set_slots_filter s (fun sl => sl.1 ≠ cancel_t.signal c) hwf
  have hnd : ((s.slots.filter (fun sl => sl.1 = cancel_t.signal c)).map Prod.snd).Nodup :=
    List.Nodup.sublist ((List.filter_sublist _).map _) hd
  have hin : W ∈ (s.slots.filter (fun sl => sl.1 = cancel_t.signal c)).map Prod.snd :=
    List.mem_map.mpr ⟨(cancel_t.signal c, W), List.mem_filter.mpr ⟨hslot, by simp⟩, rfl⟩
  have htot : ∃ s', fire nd s c = some s' := by
    rw [fire_eq_callbacks]
    rcases hst with h | h
    · subst h; exact callbacks_total_release _ _
    · apply callbacks_total_linked nd _ _ hwf0 hnd
      intro sl hsl
      have hm := List.mem_filter.mp hsl
      exact h sl hm.1 (by simpa using hm.2)
  obtain ⟨s', hs'⟩ := htot
  have hs'' := hs'
  rw [fire_eq_callbacks] at hs''
  obtain ⟨_, k2⟩ := callbacks_for nd W _ _ s' hwf0 hnd hs''
  obtain ⟨j1, j2⟩ := k2 hin hW
  exact ⟨s', hs', (fire_spec nd s s' c hwf hs').1, j2, j1, fire_resumed nd s s' c hs'⟩

/-! ## Lemmas on what registrations, executor steps and other firings keep -/

theorem quiet_spec {c : Nat} {e : Event} (h : quiet c e = true) :
    (∀ ec, e ≠ Event.notify ec) ∧ e ≠ Event.destroy ∧ ∀ c', e = Event.cancel c' → c' ≠ c := by
  cases e with
  | wait c2 =>
    refine ⟨?_, ?_, ?_⟩
    · intro _ h; cases h
    · intro h; cases h
    · intro _ h; cases h
  | notify ec => simp [quiet] at h
  | cancel c2 =>
    refine ⟨?_, ?_, ?_⟩
    · intro _ h; cases h
    · intro h; cases h
    · intro c' hc'
      cases hc'
      simpa [quiet] using h
  | run =>
    refine ⟨?_, ?_, ?_⟩
    · intro _ h; cases h
    · intro h; cases h
    · intro _ h; cases h
  | destroy => simp [quiet] at h

/-- A linked entry whose slot is connected stays linked and connected through any
event that is neither a `notify`, nor the destruction, nor a firing of its signal. -/
theorem armed_step (nd : Bool) (st st' : State) (e : Event) (x : cancel_t) (w : Nat)
    (hwf : WF st) (hh : Hist st) (hd : slots_distinct st)
    (hslot : (x, w) ∈ st.slots) (hw : w ∈ st.on_notify)
    (hn : ∀ ec, e ≠ Event.notify ec) (hde : e ≠ Event.destroy)
    (hc : ∀ c', e = Event.cancel c' → x ≠ cancel_t.signal c')
    (hs : step nd st e = some st') : (x, w) ∈ st'.slots ∧ w ∈ st'.on_notify := by
  cases e with
  | wait c2 =>
    simp [step] at hs; subst hs
    exact ⟨List.mem_append_left _ hslot, List.mem_append_left _ hw⟩
  | notify ec => exact absurd rfl (hn ec)
  | cancel c' =>
    have hx := hc c' rfl
    obtain ⟨_, _, k2, _⟩ := fire_spec nd st st' c' hwf hs
    refine ⟨?_, ?_⟩
    · rw [k2]
      exact List.mem_filter.mpr ⟨hslot, by simpa using hx⟩
    · have hs' : fire nd st c' = some st' := hs
      rw [fire_eq_callbacks] at hs'
      apply (callbacks_on_notify nd _ _ st' hs').2 w hw
      intro hmem
      obtain ⟨sl, hsl, hsl2⟩ := List.mem_map.mp hmem
      have hm := List.mem_filter.mp hsl
      have h1 : sl.1 = cancel_t.signal c' := by simpa using hm.2
      have h2 : (cancel_t.signal c', w) ∈ st.slots := by
        rw [← h1, ← hsl2]; exact hm.1
      exact hx (slot_signal_unique hd hslot h2)
  | run =>
    rcases run_some st st' hs with ⟨_, rfl⟩ | ⟨u, q, w', hq, hu, rfl⟩
    · exact ⟨hslot, hw⟩
    · refine ⟨hslot, ?_⟩
      have hmem : u ∈ st.queue := by rw [hq]; exact List.mem_cons_self _ _
      have hnl : w' ∉ st.on_notify := (hh.1 u (hh.2.1 u hmem) ⟨w', false⟩ hu).2
      have hne : w ≠ w' := fun h => hnl (h ▸ hw)
      exact (List.mem_erase_of_ne hne).mpr hw
  | destroy => exact absurd rfl hde

theorem slots_distinct_wait (s : State) (c : cancel_t) (hwf : WF s) (hd : slots_distinct s) :
    slots_distinct (wait s c) := by
  show ((s.slots ++ [(c, s.entries.length)]).map Prod.snd).Nodup
  rw [List.map_append, List.nodup_append]
  refine ⟨hd, by simp, ?_⟩
  intro a ha hb
  obtain ⟨sl, hsl, rfl⟩ := List.mem_map.mp ha
  have h1 := hwf.2.2.2 sl hsl
  have h2 : sl.2 = s.entries.length := by simpa using hb
  omega

/-- Every event keeps the slots capturing different entries. -/
theorem slots_distinct_step (nd : Bool) (s s' : State) (e : Event) (hwf : WF s)
    (hd : slots_distinct s) (h : step nd s e = some s') : slots_distinct s' := by
  cases e with
  | wait c => simp [step] at h; subst h; exact slots_distinct_wait s c hwf hd
  | notify ec =>
    simp [step] at h; subst h
    unfold slots_distinct; rw [notify_slots]; exact hd
  | cancel c =>
    obtain ⟨_, _, k2, _⟩ := fire_spec nd s s' c hwf h
    unfold slots_distinct; rw [k2]
    exact List.Nodup.sublist ((List.filter_sublist _).map _) hd
  | run =>
    unfold slots_distinct; rw [run_slots s s' h]; exact hd
  | destroy =>
    simp [step] at h; subst h
    unfold slots_distinct destroy; rw [notify_slots]; exact hd

theorem slots_sub_step (nd : Bool) (s s' : State) (e : Event) (hwf : WF s)
    (hw : ∀ c, e ≠ Event.wait c) (h : step nd s e = some s') :
    ∀ sl ∈ s'.slots, sl ∈ s.slots := by
  cases e with
  | wait c => exact absurd rfl (hw c)
  | notify ec => simp [step] at h; subst h; rw [notify_slots]; exact fun _ h => h
  | cancel c =>
    obtain ⟨_, _, k2, _⟩ := fire_spec nd s s' c hwf h
    rw [k2]; exact fun _ hx => (List.mem_filter.mp hx).1
  | run => rw [run_slots s s' h]; exact fun _ h => h
  | destroy =>
    simp [step] at h; subst h
    unfold destroy; rw [notify_slots]; exact fun _ h => h

/-- The slots of signal `c` keep capturing linked entries through any event that is
neither a `notify`, nor the destruction, nor a firing of `c`. -/
theorem slots_linked_step (nd : Bool) (c : Nat) (st st' : State) (e : Event)
    (hwf : WF st) (hh : Hist st) (hd : slots_distinct st) (hl : slots_linked c st)
    (hq : quiet c e = true) (hs : step nd st e = some st') : slots_linked c st' := by
  obtain ⟨q1, q2, q3⟩ := quiet_spec hq
  intro sl hsl hc
  by_cases hw : ∃ c2, e = Event.wait c2
  · obtain ⟨c2, rfl⟩ := hw
    simp [step] at hs; subst hs
    have hsl' : sl ∈ st.slots ++ [(c2, st.entries.length)] := hsl
    show sl.2 ∈ st.on_notify ++ [st.entries.length]
    rcases List.mem_append.mp hsl' with h | h
    · exact List.mem_append_left _ (hl sl h hc)
    · have : sl = (c2, st.entries.length) := by simpa using h
      rw [this]; simp
  · have hw' : ∀ c2, e ≠ Event.wait c2 := fun c2 h => hw ⟨c2, h⟩
    have hold := slots_sub_step nd st st' e hwf hw' hs sl hsl
    have hx : ∀ c', e = Event.cancel c' → sl.1 ≠ cancel_t.signal c' := by
      intro c' he heq
      rw [hc] at heq
      exact q3 c' he (cancel_t.signal.inj heq).symm
    exact (armed_step nd st st' e sl.1 sl.2 hwf hh hd hold (hl sl hold hc) q1 q2 hx hs).2

/-- What a sequence of registrations, executor steps and firings of other signals
keeps: the invariants, the slots of `c` on linked entries, and a linked entry
connected to `c`. -/
theorem quiet_exec (nd : Bool) (c W : Nat) (es : List Event) :
    ∀ (st st' : State), WF st → Hist st → slots_distinct st →
      (nd = true ∨ slots_linked c st) →
      (cancel_t.signal c, W) ∈ st.slots → W ∈ st.on_notify →
      (∀ e ∈ es, quiet c e = true) → exec nd st es = some st' →
      WF st' ∧ Hist st' ∧ slots_distinct st' ∧ (nd = true ∨ slots_linked c st') ∧
      (cancel_t.signal c, W) ∈ st'.slots ∧ W ∈ st'.on_notify := by
  induction es with
  | nil =>
    intro st st' h1 h2 h3 h4 h5 h6 _ h
    simp [exec] at h; subst h
    exact ⟨h1, h2, h3, h4, h5, h6⟩
  | cons e es ih =>
    intro st st' h1 h2 h3 h4 h5 h6 hq h
    unfold exec at h
    rw [List.foldlM_cons] at h
    cases hc : step nd st e with
    | none => simp [hc] at h
    | some s1 =>
      simp [hc] at h
      have hqe : quiet c e = true := hq e (List.mem_cons_self _ _)
      obtain ⟨q1, q2, q3⟩ := quiet_spec hqe
      have ha := armed_step nd st s1 e (cancel_t.signal c) W h1 h2 h3 h5 h6 q1 q2
        (fun c' he heq => q3 c' he (cancel_t.signal.inj heq).symm) hc
      refine ih s1 st' (WF_step nd st s1 e h1 hc) (Hist_step nd st s1 e h1 h2 hc)
        (slots_distinct_step nd st s1 e h1 h3 hc) ?_ ha.1 ha.2
        (fun x hx => hq x (List.mem_cons_of_mem _ hx)) h
      rcases h4 with k | k
      · exact Or.inl k
      · exact Or.inr (slots_linked_step nd c st s1 e h1 h2 h3 k hqe hc)

/-- Every state reached from a fresh ConditionVariable is well formed, has
consistent histories, and has no entry captured by two slots. -/
theorem reachable_invariants (nd : Bool) (es : List Event) :
    ∀ (s s' : State), WF s → Hist s → slots_distinct s → exec nd s es = some s' →
      WF s' ∧ Hist s' ∧ slots_distinct s' := by
  induction es with
  | nil => intro s s' h1 h2 h3 h; simp [exec] at h; subst h; exact ⟨h1, h2, h3⟩
  | cons e es ih =>
    intro s s' h1 h2 h3 h
    unfold exec at h
    rw [List.foldlM_cons] at h
    cases hc : step nd s e with
    | none => simp [hc] at h
    | some s1 =>
      simp [hc] at h
      exact ih s1 s' (WF_step nd s s1 e h1 hc) (Hist_step nd s s1 e h1 h2 hc)
        (slots_distinct_step nd s s1 e h1 h3 hc) h

/-- As long as no `notify` and no destruction has happened, every connected slot
captures a linked entry, whatever signals have fired. -/
theorem slots_linked_before_any_notify (nd : Bool) (es : List Event) :
    ∀ (s s' : State), WF s → Hist s → slots_distinct s →
      (∀ sl ∈ s.slots, sl.2 ∈ s.on_notify) →
      (∀ e ∈ es, (∀ ec, e ≠ Event.notify ec) ∧ e ≠ Event.destroy) →
      exec nd s es = some s' → ∀ sl ∈ s'.slots, sl.2 ∈ s'.on_notify := by
  induction es with
  | nil => intro s s' _ _ _ hl _ h; simp [exec] at h; subst h; exact hl
  | cons e es ih =>
    intro s s' h1 h2 h3 hl hq h
    unfold exec at h
    rw [List.foldlM_cons] at h
    cases hc : step nd s e with
    | none => simp [hc] at h
    | some s1 =>
      simp [hc] at h
      obtain ⟨q1, q2⟩ := hq e (List.mem_cons_self _ _)
      refine ih s1 s' (WF_step nd s s1 e h1 hc) (Hist_step nd s s1 e h1 h2 hc)
        (slots_distinct_step nd s s1 e h1 h3 hc) ?_
        (fun x hx => hq x (List.mem_cons_of_mem _ hx)) h
      intro sl hsl
      by_cases hw : ∃ c2, e = Event.wait c2
      · obtain ⟨c2, rfl⟩ := hw
        simp [step] at hc; subst hc
        have hsl' : sl ∈ s.slots ++ [(c2, s.entries.length)] := hsl
        show sl.2 ∈ s.on_notify ++ [s.entries.length]
        rcases List.mem_append.mp hsl' with k | k
        · exact List.mem_append_left _ (hl sl k)
        · have : sl = (c2, s.entries.length) := by simpa using k
          rw [this]; simp
      · have hw' : ∀ c2, e ≠ Event.wait c2 := fun c2 h => hw ⟨c2, h⟩
        have hold := slots_sub_step nd s s1 e h1 hw' hc sl hsl
        have hx : ∀ c', e = Event.cancel c' → sl.1 ≠ cancel_t.signal c' := by
          intro c' he
          subst he
          obtain ⟨_, _, k2, _⟩ := fire_spec nd s s1 c' h1 hc
          rw [k2] at hsl
          simpa using (List.mem_filter.mp hsl).2
        exact (armed_step nd s s1 e sl.1 sl.2 h1 h2 h3 hold (hl sl hold) q1 q2 hx hc).2

theorem units_for_append (us vs : List Work) (w : Nat) :
    units_for (us ++ vs) w = units_for us w ++ units_for vs w := by
  simp [units_for, List.filter_append]

end upnp
